import Mathlib

/-!
# Verification of the trie write-back node cache and pruner

A shallow embedding of the write-back trie node cache (`src/trie/database.go`)
and the background pruner (`src/unnamed/part_001`) of the repository, together
with proofs about the spec's claims.

Representation choices, justified below by theorems:
* `common.Hash` values are abstract (`Nat`); `0` plays the role of the all-zero
  hash `common.Hash{}`.  The cache never inspects hash bytes, it only compares
  keys for equality.
* Node keys are represented structurally as `(owner, path, hash)` triples
  rather than as their byte encoding: the byte codec (which lives outside the
  cache file) is injective, so this is a faithful renaming of map keys.  The
  meta root sentinel (`metaRoot = ""`, the "owner=path=hash=zero-equivalent"
  key of the spec) is the zero triple.
* Go's `common.StorageSize` (a float64 that only ever holds exact small
  integers here) is modelled as `Int`.
* The `uint16`/`uint32` counters (`size`, `children` multiplicities,
  `parents`) are `Nat` with explicit wrap-around `% 2^16` / `% 2^32`.
* The RLP encoder and the disk store are external collaborators per the spec;
  they are parameters of the operations (`rlpLen` gives the encoded size of a
  node, a failure schedule says which batch writes fail).
-/

namespace TrieDB

/-! ## Byte-level node key codec

Modelled from the spec: `EncodeNodeKey`/`DecodeNodeKey` are used by
`src/trie/database.go` but defined outside `src/`.  The spec fixes the on-disk
key format as `ownerHash(32B) ++ nibblePath(variable) ++ nodeHash(32B)`. -/

/-- Modelled from the spec: encoding of an `(owner, path, hash)` node key as
the byte string `ownerHash(32B) ++ nibblePath(variable) ++ nodeHash(32B)`. -/
def encodeNodeKey (owner path hash : List Nat) : List Nat :=
  owner ++ path ++ hash

/-- Modelled from the spec: decoding of a node key byte string back into the
`(owner, path, hash)` triple; the owner is the first 32 bytes, the hash the
last 32 bytes, the nibble path everything in between. -/
def decodeNodeKey (bs : List Nat) : List Nat × List Nat × List Nat :=
  (bs.take 32, (bs.drop 32).take (bs.length - 64), bs.drop (bs.length - 32))

/-! ## Structural node keys and trie nodes -/

/-- Abstract 32-byte hash; `0` stands for `common.Hash{}`. -/
abbrev Hash := Nat

/-- A nibble path inside a trie. -/
abbrev Path := List Nat

/-- A node key `(owner, path, hash)`; the Go code stores the byte encoding,
which is injective, so the triple itself is used as the map key. -/
structure NodeKey where
  owner : Hash
  path : Path
  hash : Hash
deriving DecidableEq

/-- The meta-root sentinel key (`metaRoot = ""` in the Go code; per the spec
the "owner=path=hash=zero-equivalent" key anchoring the flush list). -/
def metaRoot : NodeKey := ⟨0, [], 0⟩

/-- Simplified trie node content (`rawShortNode` / `rawFullNode` / `hashNode`
/ `valueNode` / nil from the Go code); a `rawFull` carries the 17 child slots
as a list. -/
inductive TrieNode where
  | rawShort (key : Path) (val : TrieNode)
  | rawFull (children : List TrieNode)
  | hashRef (h : Hash)
  | valueBlob (v : List Nat)
  | nilNode

mutual

/-- `iterateRefs` from the Go code: collect all embedded hash children of a
node together with the internal path leading to them.  Short nodes extend the
path by their key; full nodes visit child slots `0..15` extending the path by
the slot index; hash nodes report `(path, hash)`. -/
def collectRefs : TrieNode → Path → List (Path × Hash)
  | .rawShort k v, path => collectRefs v (path ++ k)
  | .rawFull cs, path => collectRefsList cs 0 path
  | .hashRef h, path => [(path, h)]
  | .valueBlob _, _ => []
  | .nilNode, _ => []

/-- Helper of `collectRefs` walking the child slots of a full node; only the
first 16 slots (the branch children) are visited, mirroring the
`for i := 0; i < 16; i++` loop of `iterateRefs`. -/
def collectRefsList : List TrieNode → Nat → Path → List (Path × Hash)
  | [], _, _ => []
  | c :: rest, i, path =>
    if i < 16 then collectRefs c (path ++ [i]) ++ collectRefsList rest (i + 1) path
    else []

end

/-! ## The dirty node map

Go's `map[string]*cachedNode` is modelled as an association list.  `setNode`
replaces the first binding (or appends), `eraseNode` removes every binding of
a key, matching Go map semantics on duplicate-free lists. -/

/-- Wrap-around modulus of the `uint32` parent counter. -/
def uint32Mod : Nat := 4294967296

/-- Wrap-around modulus of the `uint16` counters. -/
def uint16Mod : Nat := 65536

/-- `cachedNode` from the Go code: the collapsed node, its byte size
(`uint16`), the live parent counter (`uint32`), the external children
multiplicity map (`nil` map vs allocated map is significant for size
accounting), and the flush-list neighbour keys. -/
structure CachedNode where
  node : TrieNode
  size : Nat
  parents : Nat
  children : Option (List (NodeKey × Nat))
  flushPrev : NodeKey
  flushNext : NodeKey

/-- The dirty map: association list from node keys to cached nodes. -/
abbrev Dirties := List (NodeKey × CachedNode)

/-- Lookup in the dirty map (first binding wins, as in a Go map with unique
keys). -/
def findNode : Dirties → NodeKey → Option CachedNode
  | [], _ => none
  | (k', n) :: rest, k => if k' = k then some n else findNode rest k

/-- Replace the first binding of `k` (or append a new binding). -/
def setNode : Dirties → NodeKey → CachedNode → Dirties
  | [], k, n => [(k, n)]
  | (k', n') :: rest, k, n =>
    if k' = k then (k, n) :: rest else (k', n') :: setNode rest k n

/-- Remove every binding of `k` (Go `delete`). -/
def eraseNode (m : Dirties) (k : NodeKey) : Dirties :=
  m.filter (fun p => decide (p.1 ≠ k))

/-- Lookup in a children multiplicity map. -/
def findChild : List (NodeKey × Nat) → NodeKey → Option Nat
  | [], _ => none
  | (k', c) :: rest, k => if k' = k then some c else findChild rest k

/-- Lookup with Go's zero default for absent keys. -/
def findChildD (cm : List (NodeKey × Nat)) (k : NodeKey) : Nat :=
  (findChild cm k).getD 0

/-- Replace the first binding of `k` in a children map (or append). -/
def setChild : List (NodeKey × Nat) → NodeKey → Nat → List (NodeKey × Nat)
  | [], k, c => [(k, c)]
  | (k', c') :: rest, k, c =>
    if k' = k then (k, c) :: rest else (k', c') :: setChild rest k c

/-- Remove every binding of `k` from a children map. -/
def eraseChild (cm : List (NodeKey × Nat)) (k : NodeKey) : List (NodeKey × Nat) :=
  cm.filter (fun p => decide (p.1 ≠ k))

/-! ## Size accounting constants (from `src/trie/database.go`) -/

/-- `common.HashLength`. -/
def hashLength : Nat := 32

/-- `cachedNodeSize = reflect.TypeOf(cachedNode{}).Size()`: the raw in-memory
size of the `cachedNode` struct on a 64-bit platform. -/
def cachedNodeSize : Nat := 64

/-- `cachedNodeChildrenSize`: raw size of an initialized but empty external
reference map. -/
def cachedNodeChildrenSize : Nat := 48

/-- `ethdb.IdealBatchSize` (100 KiB). -/
def idealBatchSize : Nat := 102400

/-- `minBlockConfirms`: minimal block confirmations on top before pruning. -/
def minBlockConfirms : Nat := 3600

/-! ## The trie `Database` state

The fields of the Go `Database` struct that the modelled operations read or
write.  The metric counters (`gcnodes`, `flushnodes`, timers, meters) are pure
observability and are omitted.  A result of `none` from an operation models a
Go runtime panic (nil-pointer dereference on a missing map entry). -/

/-- The mutable state of the trie `Database`. -/
@[ext]
structure DB where
  dirties : Dirties
  oldest : NodeKey
  newest : NodeKey
  preimages : Option (List (Hash × List Nat))
  dirtiesSize : Int
  childrenSize : Int
  preimagesSize : Int

/-- The in-memory footprint charged for one flushed entry in `Cap`: useful
data (`hashLength + size`), struct metadata (`cachedNodeSize`) and, for an
allocated external children map, its bookkeeping size. -/
def nodeFootprint (n : CachedNode) : Int :=
  (hashLength + n.size + cachedNodeSize : Nat) +
    (match n.children with
     | some cm => (cachedNodeChildrenSize + cm.length * (hashLength + 2) : Nat)
     | none => 0)

/-- The external-children footprint of one entry as subtracted by the `Cap`
uncache loop and by `cleaner.Put`. -/
def childrenFootprint (n : CachedNode) : Int :=
  match n.children with
  | some cm => (cachedNodeChildrenSize + cm.length * (hashLength + 2) : Nat)
  | none => 0

/-- The reference-counting callback of `insert`: for each embedded child
`(childPath, childHash)` already resident in the dirty map, increment its
parent counter. -/
def refIncr (owner : Hash) (m : Dirties) (refs : List (Path × Hash)) : Dirties :=
  refs.foldl (fun m pr =>
    let childKey : NodeKey := ⟨owner, pr.1, pr.2⟩
    match findNode m childKey with
    | some c => setNode m childKey { c with parents := (c.parents + 1) % uint32Mod }
    | none => m) m

/-- `insert(owner, path, hash, size, node)` from `src/trie/database.go`:
no-op when the key is already dirty; otherwise increments the parent counter
of each embedded hash child that is already resident, stores the new entry and
appends it at the flush-list tail.  `none` models the panic on a missing
`db.newest` entry. -/
def insert (db : DB) (owner : Hash) (path : Path) (hash : Hash) (size : Nat)
    (node : TrieNode) : Option DB :=
  let key : NodeKey := ⟨owner, path, hash⟩
  match findNode db.dirties key with
  | some _ => some db
  | none =>
    let entry : CachedNode :=
      { node := node, size := size % uint16Mod, parents := 0, children := none,
        flushPrev := db.newest, flushNext := metaRoot }
    let dirties1 := refIncr owner db.dirties (collectRefs node path)
    let dirties2 := setNode dirties1 key entry
    if db.oldest = metaRoot then
      some { db with
        dirties := dirties2, oldest := key, newest := key,
        dirtiesSize := db.dirtiesSize + ((hashLength + entry.size : Nat) : Int) }
    else
      match findNode dirties2 db.newest with
      | none => none
      | some prev =>
        some { db with
          dirties := setNode dirties2 db.newest { prev with flushNext := key },
          newest := key,
          dirtiesSize := db.dirtiesSize + ((hashLength + entry.size : Nat) : Int) }

/-- The tail of `reference`: increment the child's parent counter, bump the
multiplicity of the edge in the parent's children map, and account for a newly
created edge.  The re-lookups model the Go pointer aliasing (child and parent
may be the same entry). -/
def referenceFinish (db : DB) (childKey parentKey : NodeKey) : Option DB :=
  match findNode db.dirties childKey with
  | none => none
  | some c =>
    let db1 := { db with
      dirties := setNode db.dirties childKey
        { c with parents := (c.parents + 1) % uint32Mod } }
    match findNode db1.dirties parentKey with
    | none => none
    | some p =>
      match p.children with
      | none => none
      | some cm =>
        let newCount := (findChildD cm childKey + 1) % uint16Mod
        let db2 := { db1 with
          dirties := setNode db1.dirties parentKey
            { p with children := some (setChild cm childKey newCount) } }
        if newCount = 1 then
          some { db2 with childrenSize := db2.childrenSize + ((hashLength : Nat) + 2 : Nat) }
        else some db2

/-- `reference(owner, child, parent, parentPath)` from
`src/trie/database.go`: a no-op when the child key is not dirty; otherwise
allocates the parent's children map if needed, then returns early when the
edge already exists and the parent hash is non-zero, else counts the edge
again.  `none` models the panic on a missing parent entry. -/
def reference (db : DB) (owner child parent : Hash) (parentPath : Path) : Option DB :=
  let childKey : NodeKey := ⟨owner, [], child⟩
  match findNode db.dirties childKey with
  | none => some db
  | some _ =>
    let parentKey : NodeKey := ⟨0, parentPath, parent⟩
    match findNode db.dirties parentKey with
    | none => none
    | some parentNode =>
      match parentNode.children with
      | none =>
        let db1 := { db with
          dirties := setNode db.dirties parentKey { parentNode with children := some [] },
          childrenSize := db.childrenSize + (cachedNodeChildrenSize : Nat) }
        referenceFinish db1 childKey parentKey
      | some cm =>
        if (findChild cm childKey).isSome ∧ parent ≠ 0 then some db
        else referenceFinish db childKey parentKey

/-- The head of `dereference`: decrement (and possibly delete) the edge
counter for `childKey` in the parent's children map. -/
def derefParentEdge (db : DB) (parentKey childKey : NodeKey) (parent : CachedNode) : DB :=
  match parent.children with
  | some cm =>
    if 0 < findChildD cm childKey then
      if findChildD cm childKey - 1 = 0 then
        { db with
          dirties := setNode db.dirties parentKey
            { parent with children := some (eraseChild cm childKey) },
          childrenSize := db.childrenSize - ((hashLength : Nat) + 2 : Nat) }
      else
        { db with
          dirties := setNode db.dirties parentKey
            { parent with children := some (setChild cm childKey (findChildD cm childKey - 1)) } }
    else db
  | none => db

/-- Unlink `childKey` (with entry `child`) from the flush list, mirroring the
three-way `switch` in `dereference`.  `none` models the panic on a missing
neighbour entry. -/
def unlinkFlush (db : DB) (childKey : NodeKey) (child : CachedNode) : Option DB :=
  if childKey = db.oldest then
    match findNode db.dirties child.flushNext with
    | none => none
    | some nx =>
      some { db with
        oldest := child.flushNext,
        dirties := setNode db.dirties child.flushNext { nx with flushPrev := metaRoot } }
  else if childKey = db.newest then
    match findNode db.dirties child.flushPrev with
    | none => none
    | some pv =>
      some { db with
        newest := child.flushPrev,
        dirties := setNode db.dirties child.flushPrev { pv with flushNext := metaRoot } }
  else
    match findNode db.dirties child.flushPrev with
    | none => none
    | some pv =>
      let db := { db with
        dirties := setNode db.dirties child.flushPrev { pv with flushNext := child.flushNext } }
      match findNode db.dirties child.flushNext with
      | none => none
      | some nx =>
        some { db with
          dirties := setNode db.dirties child.flushNext { nx with flushPrev := child.flushPrev } }

/-- `dereference(childOwner, childHash, childPath, parentOwner, parentHash,
parentPath)` from `src/trie/database.go`, with explicit recursion fuel
(`none` also models non-termination of a cyclic reference graph, which in Go
would loop forever — the graph is acyclic in practice).  The child's parent
counter saturates at zero (the disk-reinjection corner case); when it reaches
zero the child is unlinked, its embedded children are recursively
dereferenced, and the entry is deleted. -/
def dereference : Nat → DB → Hash → Hash → Path → Hash → Hash → Path → Option DB
  | 0, _, _, _, _, _, _, _ => none
  | fuel + 1, db, childOwner, childHash, childPath, parentOwner, parentHash, parentPath =>
    let parentKey : NodeKey := ⟨parentOwner, parentPath, parentHash⟩
    match findNode db.dirties parentKey with
    | none => none
    | some parent =>
      let childKey : NodeKey := ⟨childOwner, childPath, childHash⟩
      let db := derefParentEdge db parentKey childKey parent
      match findNode db.dirties childKey with
      | none => some db
      | some child0 =>
        let child := if 0 < child0.parents then { child0 with parents := child0.parents - 1 }
                     else child0
        let db := { db with dirties := setNode db.dirties childKey child }
        if child.parents = 0 then
          match unlinkFlush db childKey child with
          | none => none
          | some db1 =>
            match (collectRefs child.node childPath).foldlM (fun acc pr =>
                dereference fuel acc childOwner pr.2 pr.1 childOwner childHash childPath) db1 with
            | none => none
            | some db2 =>
              some { db2 with
                dirties := eraseNode db2.dirties childKey,
                dirtiesSize := db2.dirtiesSize - ((hashLength : Nat) + child.size : Nat),
                childrenSize := db2.childrenSize -
                  (match child.children with
                   | some _ => (cachedNodeChildrenSize : Int)
                   | none => 0) }
        else some db

/-- `Dereference(root)` from `src/trie/database.go`: refuses the meta root,
otherwise dereferences the edge from the meta root to `(0, [], root)`. -/
def Dereference (fuel : Nat) (db : DB) (root : Hash) : Option DB :=
  if root = 0 then some db
  else dereference fuel db 0 root [] 0 0 []

/-! ## Disk store and write batches

The disk key-value store is an external collaborator.  It is modelled as the
list of durably written trie nodes plus a counter of `Write` calls; a failure
schedule (`fail : Nat → Bool`) says which `batch.Write()` calls return a disk
I/O error.  Preimage payloads only matter through their contribution to the
batch value size, so a batch records the pending trie nodes and its total
value size. -/

/-- A pending write batch (`ethdb.Batch`). -/
structure Batch where
  nodes : List (NodeKey × TrieNode)
  valueSize : Nat

/-- The empty batch (`NewBatch` / after `Reset`). -/
def emptyBatch : Batch := ⟨[], 0⟩

/-- The persistent disk store: durably written trie nodes (append log) and
the number of `Write` calls performed so far. -/
structure Disk where
  nodes : List (NodeKey × TrieNode)
  writes : Nat

/-- `batch.Write()`: fails according to the failure schedule, otherwise
appends the batch contents durably. -/
def batchWrite (fail : Nat → Bool) (d : Disk) (b : Batch) : Option Disk :=
  if fail d.writes then none
  else some { nodes := d.nodes ++ b.nodes, writes := d.writes + 1 }

/-- Result of a fallible state-mutating operation: `ok` on success, `err` on
a propagated disk I/O error (carrying the state as the Go code left it in
place), `crash` for a Go panic or fuel exhaustion. -/
inductive Res (ε α : Type) where
  | ok (val : α)
  | err (e : ε)
  | crash

instance : Monad (Res ε) where
  pure := .ok
  bind r f := match r with
    | .ok a => f a
    | .err e => .err e
    | .crash => .crash

/-! ## `Cap` -/

/-- The flush loop of `Cap`: walk the flush list from `oldest` while the
tracked size exceeds the limit, pushing each node into the batch (with its
RLP size given by the external encoder `rlpLen`), writing out size-bounded
batches, and decrementing the running size by each flushed node's footprint.
Returns the stopping key (the uncache marker), the pending batch, the disk
and the final running size.  `pruner.flushMarker` is part of the commit-record
code outside `src/` and is modelled from the spec as a no-op on the trie data.
-/
def capLoop (fail : Nat → Bool) (rlpLen : TrieNode → Nat) (dirties : Dirties)
    (limit : Int) :
    Nat → NodeKey → Int → Batch → Disk → Res Disk (NodeKey × Batch × Disk × Int)
  | 0, _, _, _, _ => .crash
  | fuel + 1, oldest, size, batch, disk =>
    if size ≤ limit ∨ oldest = metaRoot then .ok (oldest, batch, disk, size)
    else
      match findNode dirties oldest with
      | none => .crash
      | some node =>
        let batch := { nodes := batch.nodes ++ [(oldest, node.node)],
                       valueSize := batch.valueSize + rlpLen node.node }
        if idealBatchSize ≤ batch.valueSize then
          match batchWrite fail disk batch with
          | none => .err disk
          | some disk' =>
            capLoop fail rlpLen dirties limit fuel node.flushNext
              (size - nodeFootprint node) emptyBatch disk'
        else
          capLoop fail rlpLen dirties limit fuel node.flushNext
            (size - nodeFootprint node) batch disk

/-- The uncache loop of `Cap`: after the disk write succeeded, pop entries
from the flush-list head until the stopping marker, deleting them from the
dirty map and releasing their tracked sizes. -/
def uncacheLoop : Nat → DB → NodeKey → Option DB
  | 0, _, _ => none
  | fuel + 1, db, marker =>
    if db.oldest = marker then some db
    else
      match findNode db.dirties db.oldest with
      | none => none
      | some node =>
        uncacheLoop fuel
          { db with
            dirties := eraseNode db.dirties db.oldest,
            oldest := node.flushNext,
            dirtiesSize := db.dirtiesSize - ((hashLength + node.size : Nat) : Int),
            childrenSize := db.childrenSize - childrenFootprint node }
          marker

/-- The number of external children recorded for the meta root (subtracted
when reporting the total tracked memory). -/
def metaChildCount (db : DB) : Nat :=
  match findNode db.dirties metaRoot with
  | some me => (match me.children with | some cm => cm.length | none => 0)
  | none => 0

/-- The dirty-cache component of `Size()`, which is also the quantity `Cap`
measures against its limit: useful data plus per-entry metadata plus
external-children bookkeeping, minus the meta-root references. -/
def reportSize (db : DB) : Int :=
  db.dirtiesSize + db.childrenSize +
    ((db.dirties.length : Int) - 1) * (cachedNodeSize : Nat) -
    (metaChildCount db : Int) * ((hashLength + 2 : Nat) : Int)

/-- The preimage-cache drain of `Cap`: once the batch is durably written, a
flushed preimage cache is emptied and its size counter reset. -/
def preimageReset (flush : Bool) (db : DB) : DB :=
  if flush ∧ db.preimages.isSome then
    { db with preimages := some [], preimagesSize := 0 }
  else db

/-- `Cap(limit)` from `src/trie/database.go`: flush old nodes until the total
tracked memory drops to the limit, two-phase (write, then uncache).  On a
disk error the call aborts with the in-memory state exactly as it was
(`Res.err` carries it).  Preimages are pushed into the batch first when their
cache grew beyond 4 MiB. -/
def cap (fail : Nat → Bool) (rlpLen : TrieNode → Nat) (db : DB) (disk : Disk)
    (limit : Int) : Res (DB × Disk) (DB × Disk) :=
  match findNode db.dirties metaRoot with
  | none => .crash
  | some _ =>
    let size0 := reportSize db
    let flushPreimages := decide (db.preimagesSize > 4 * 1024 * 1024)
    let pre : Res (DB × Disk) (Batch × Disk) :=
      if flushPreimages then
        match db.preimages with
        | none => .ok (emptyBatch, disk)
        | some pim =>
          let b : Batch := ⟨[], pim.foldl (fun a p => a + p.2.length) 0⟩
          if idealBatchSize < b.valueSize then
            match batchWrite fail disk b with
            | none => .err (db, disk)
            | some disk' => .ok (emptyBatch, disk')
          else .ok (b, disk)
      else .ok (emptyBatch, disk)
    match pre with
    | .err e => .err e
    | .crash => .crash
    | .ok (batch0, disk0) =>
      match capLoop fail rlpLen db.dirties limit (db.dirties.length + 1)
          db.oldest size0 batch0 disk0 with
      | .crash => .crash
      | .err _ => .err (db, disk0)
      | .ok (marker, batch1, disk1, _) =>
        match batchWrite fail disk1 batch1 with
        | none => .err (db, disk1)
        | some disk2 =>
          let db := preimageReset flushPreimages db
          match uncacheLoop (db.dirties.length + 1) db marker with
          | none => .crash
          | some db' =>
            if db'.oldest = metaRoot then .ok (db', disk2)
            else
              match findNode db'.dirties db'.oldest with
              | none => .crash
              | some hd =>
                .ok ({ db' with
                  dirties := setNode db'.dirties db'.oldest
                    { hd with flushPrev := metaRoot } }, disk2)

/-! ## `Commit` -/

/-- `cleaner.Put` from `src/trie/database.go`: uncache one durably written
key — unlink it from the flush list, delete it from the dirty map and release
its tracked sizes (note the Go code charges the children footprint against
`dirtiesSize` here, unlike the `Cap` uncache loop). -/
def uncacheKey (db : DB) (k : NodeKey) : Option DB :=
  match findNode db.dirties k with
  | none => some db
  | some node =>
    match unlinkFlush db k node with
    | none => none
    | some db1 =>
      some { db1 with
        dirties := eraseNode db1.dirties k,
        dirtiesSize := db1.dirtiesSize - ((hashLength + node.size : Nat) : Int) -
          childrenFootprint node }

/-- `batch.Replay(uncacher)`: uncache every key the batch contained. -/
def replayBatch (db : DB) (b : Batch) : Option DB :=
  b.nodes.foldlM (fun acc kv => uncacheKey acc kv.1) db

/-- `commit(owner, path, hash, batch, uncacher)` from
`src/trie/database.go`: depth-first flush of every dirty node reachable from
the given key — embedded children first, then external children, then the
node itself — writing out (and immediately uncaching) size-bounded
intermediate batches.  The Go `callback` is not modelled (`nil` in `Commit`).
-/
def commitNode (fail : Nat → Bool) (rlpLen : TrieNode → Nat) :
    Nat → Hash → Path → Hash → DB × Disk × Batch →
    Res (DB × Disk × Batch) (DB × Disk × Batch)
  | 0, _, _, _, _ => .crash
  | fuel + 1, owner, path, hash, (db, disk, batch) =>
    let key : NodeKey := ⟨owner, path, hash⟩
    match findNode db.dirties key with
    | none => .ok (db, disk, batch)
    | some node =>
      match (collectRefs node.node path).foldlM (fun st pr =>
          commitNode fail rlpLen fuel owner pr.1 pr.2 st) (db, disk, batch) with
      | .err e => .err e
      | .crash => .crash
      | .ok st1 =>
        match (node.children.getD []).foldlM (fun st ck =>
            commitNode fail rlpLen fuel ck.1.owner ck.1.path ck.1.hash st) st1 with
        | .err e => .err e
        | .crash => .crash
        | .ok (db2, disk2, batch2) =>
          let batch3 : Batch := { nodes := batch2.nodes ++ [(key, node.node)],
                                  valueSize := batch2.valueSize + rlpLen node.node }
          if idealBatchSize ≤ batch3.valueSize then
            match batchWrite fail disk2 batch3 with
            | none => .err (db2, disk2, batch3)
            | some disk3 =>
              match replayBatch db2 batch3 with
              | none => .crash
              | some db3 => .ok (db3, disk3, emptyBatch)
          else .ok (db2, disk2, batch3)

/-- `CommitWithMetadata(number, hash, root)` from `src/trie/database.go`
(`Commit(root)` is the `number = 0, hash = 0` instance): flush accumulated
preimages, recursively commit the trie under `root`, write and replay the
final batch, then close the commit-record window.  `commitEndFails` abstracts
a failure of `pruner.commitEnd` (whose `CommitRecord.finalize` lives outside
`src/` and reads the disk); it is only consulted when block metadata was
supplied.  The pruner's record bookkeeping is modelled separately and does
not touch the `DB`/`Disk` trie state. -/
def commitTop (fail : Nat → Bool) (rlpLen : TrieNode → Nat)
    (commitEndFails : Bool) (fuel : Nat) (number : Nat) (hash : Hash)
    (root : Hash) (db : DB) (disk : Disk) : Res (DB × Disk) (DB × Disk) :=
  let pre : Res (DB × Disk) Disk :=
    match db.preimages with
    | none => .ok disk
    | some pim =>
      match batchWrite fail disk ⟨[], pim.foldl (fun a p => a + p.2.length) 0⟩ with
      | none => .err (db, disk)
      | some disk1 => .ok disk1
  match pre with
  | .err e => .err e
  | .crash => .crash
  | .ok disk1 =>
    let writeMeta := number ≠ 0 ∧ hash ≠ 0
    match commitNode fail rlpLen fuel 0 [] root (db, disk1, emptyBatch) with
    | .err (db', disk', _) => .err (db', disk')
    | .crash => .crash
    | .ok (db2, disk2, batch2) =>
      match batchWrite fail disk2 batch2 with
      | none => .err (db2, disk2)
      | some disk3 =>
        match replayBatch db2 batch2 with
        | none => .crash
        | some db3 =>
          if writeMeta ∧ commitEndFails then .err (db3, disk3)
          else
            let db4 := if db3.preimages.isSome then
                { db3 with preimages := some [], preimagesSize := 0 }
              else db3
            .ok (db4, disk3)

/-! ## The pruner (`src/unnamed/part_001`)

The pruner's record bookkeeping and background loop.  The `CommitRecord` type
itself lives outside `src/`; a current record is modelled from the spec as
the block identity plus the list of keys added so far (`CommitRecord.add`
appends a written key). -/

/-- The identity of a tracked commit record (`number`, `hash`). -/
structure CommitRecordMeta where
  number : Nat
  hash : Hash
deriving DecidableEq

/-- Modelled from the spec: the in-progress commit record created by
`commitStart` (`newCommitRecord`), accumulating the keys written during the
window. -/
structure CurrentRecord where
  number : Nat
  hash : Hash
  keys : List NodeKey
deriving DecidableEq

/-- The pruner's record-tracking state: live records, the in-progress
record, the clean/partial key lists and the configured record cap. -/
structure PrunerState where
  records : List CommitRecordMeta
  current : Option CurrentRecord
  partialKeys : List NodeKey
  cleanKeys : List NodeKey
  maximumRecords : Nat
  written : Nat
deriving DecidableEq

/-- `commitStart(number, hash)`: `log.Crit` (modelled as `none`) when a
commit window is already open; creates a fresh record iff the number of live
records is strictly below the configured cap, otherwise the commit proceeds
untracked. -/
def commitStart (p : PrunerState) (number : Nat) (hash : Hash) : Option PrunerState :=
  if p.current.isSome then none
  else if p.maximumRecords ≤ p.records.length then some p
  else some { p with current := some ⟨number, hash, []⟩ }

/-- `addKey(key, partial)`: attribute a written key to the open record, or to
the clean/partial key lists when no window is open / the key was written
before the window opened. -/
def addKey (p : PrunerState) (key : NodeKey) (partialFlag : Bool) : PrunerState :=
  let p := { p with written := p.written + 1 }
  if partialFlag then { p with partialKeys := p.partialKeys ++ [key] }
  else
    match p.current with
    | some cur => { p with current := some { cur with keys := cur.keys ++ [key] } }
    | none => { p with cleanKeys := p.cleanKeys ++ [key] }

/-- `filterRecords(number)`: the tracked records with block number strictly
below the threshold. -/
def filterRecords (records : List CommitRecordMeta) (number : Nat) :
    List CommitRecordMeta :=
  records.filter (fun r => r.number < number)

/-- One block-height signal arriving at the pruner loop
(`case number := <-p.signal`): ignored while paused, while a run is already
in flight, or while the height is below the minimal confirmation count;
otherwise the records older than `number - minBlockConfirms` are filtered and
a pruning run is launched over them when the set is non-empty (`some ret`). -/
def signalStep (paused running : Bool) (records : List CommitRecordMeta)
    (number : Nat) : Option (List CommitRecordMeta) :=
  if paused then none
  else if running then none
  else if number < minBlockConfirms then none
  else
    let ret := filterRecords records (number - minBlockConfirms)
    if ret.isEmpty then none else some ret

/-- The state a pruning run operates on: the in-memory record list, the
persisted commit-record identities and the persisted trie nodes. -/
structure PruneState where
  records : List CommitRecordMeta
  diskRecords : List CommitRecordMeta
  diskNodes : List (NodeKey × TrieNode)

/-- `removeRecord`: drop the record from the in-memory list (`log.Crit`,
modelled as `none`, when it is not present) and delete its persisted
metadata.  Trie node data is not touched. -/
def removeRecordSt (st : PruneState) (r : CommitRecordMeta) : Option PruneState :=
  if r ∈ st.records then
    some { st with
      records := st.records.filter (fun x => decide (¬(x.number = r.number ∧ x.hash = r.hash))),
      diskRecords := st.diskRecords.filter (fun x => decide (¬(x.number = r.number ∧ x.hash = r.hash))) }
  else none

/-- `pruning(records, done, interrupt)`: process the filtered records in
order; stop when interrupted (checked before each record); drop a
non-canonical record's metadata and continue; drop a record that fails to
read back and continue; otherwise delete the record's stale keys
(`CommitRecord.deleteStale` lives outside `src/` and is abstracted as the
parameter `deleteStaleFn`, as are the canonicality oracle `isCanonical` and
the persisted-record read-back `readRecord`). -/
def pruningRun (isCanonical : Nat → Hash → Bool)
    (readRecord : Nat → Hash → Option (List NodeKey))
    (deleteStaleFn : CommitRecordMeta → List NodeKey → PruneState → Option PruneState)
    (interruptAt : Nat → Bool) :
    List CommitRecordMeta → Nat → PruneState → Option PruneState
  | [], _, st => some st
  | r :: rest, idx, st =>
    if interruptAt idx then some st
    else if isCanonical r.number r.hash then
      match readRecord r.number r.hash with
      | none =>
        match removeRecordSt st r with
        | none => none
        | some st' => pruningRun isCanonical readRecord deleteStaleFn interruptAt rest (idx + 1) st'
      | some keys =>
        match deleteStaleFn r keys st with
        | none => none
        | some st' => pruningRun isCanonical readRecord deleteStaleFn interruptAt rest (idx + 1) st'
    else
      match removeRecordSt st r with
      | none => none
      | some st' => pruningRun isCanonical readRecord deleteStaleFn interruptAt rest (idx + 1) st'

/-! ## Generic facts about `Res` -/

@[simp]
theorem res_bind_ok {ε α β : Type} (t : α) (k : α → Res ε β) :
    (Res.ok t >>= k) = k t := rfl

@[simp]
theorem res_bind_err {ε α β : Type} (e : ε) (k : α → Res ε β) :
    ((Res.err e : Res ε α) >>= k) = Res.err e := rfl

@[simp]
theorem res_bind_crash {ε α β : Type} (k : α → Res ε β) :
    ((Res.crash : Res ε α) >>= k) = Res.crash := rfl

/-- A relation holding between the input state and whatever state a `Res`
computation ends in (trivially for a crash). -/
def ResRel {σ : Type} (R : σ → σ → Prop) (s : σ) : Res σ σ → Prop
  | .ok t => R s t
  | .err t => R s t
  | .crash => True

theorem foldlM_resRel {σ α : Type} (R : σ → σ → Prop)
    (htrans : ∀ a b c, R a b → R b c → R a c)
    (hrefl : ∀ s, R s s) (f : σ → α → Res σ σ) :
    ∀ (l : List α), (∀ s x, x ∈ l → ResRel R s (f s x)) →
      ∀ s, ResRel R s (l.foldlM f s) := by
  intro l
  induction l with
  | nil => intro _ s; rw [List.foldlM_nil]; exact hrefl s
  | cons x xs ih =>
    intro hstep s
    rw [List.foldlM_cons]
    have h1 := hstep s x (List.mem_cons_self x xs)
    cases hf : f s x with
    | ok t =>
      rw [hf] at h1
      rw [res_bind_ok]
      have h2 := ih (fun s' y hy => hstep s' y (List.mem_cons_of_mem _ hy)) t
      cases hr : xs.foldlM f t with
      | ok u => rw [hr] at h2; exact htrans _ _ _ h1 h2
      | err u => rw [hr] at h2; exact htrans _ _ _ h1 h2
      | crash => exact trivial
    | err t =>
      rw [hf] at h1
      rw [res_bind_err]
      exact h1
    | crash =>
      rw [res_bind_crash]
      exact trivial

/-! ## Basic lemmas about the association-list maps -/

theorem findNode_setNode (m : Dirties) (k k' : NodeKey) (n : CachedNode) :
    findNode (setNode m k n) k' = if k = k' then some n else findNode m k' := by
  induction m with
  | nil => by_cases h : k = k' <;> simp [setNode, findNode, h]
  | cons p rest ih =>
    obtain ⟨k₀, n₀⟩ := p
    by_cases h₀ : k₀ = k
    · subst h₀
      by_cases h : k₀ = k' <;> simp [setNode, findNode, h]
    · by_cases h : k₀ = k'
      · subst h
        have hkk : ¬(k = k₀) := fun hc => h₀ hc.symm
        simp [setNode, findNode, h₀, hkk]
      · simp [setNode, findNode, h₀, h, ih]

theorem findNode_eraseNode (m : Dirties) (k k' : NodeKey) :
    findNode (eraseNode m k) k' = if k = k' then none else findNode m k' := by
  induction m with
  | nil => by_cases h : k = k' <;> simp [eraseNode, findNode, h]
  | cons p rest ih =>
    obtain ⟨k₀, n₀⟩ := p
    by_cases h₀ : k₀ = k
    · subst h₀
      by_cases h : k₀ = k' <;> simp [eraseNode, findNode, h, ih] at ih ⊢ <;>
        simpa [eraseNode, h] using ih
    · by_cases h : k₀ = k'
      · subst h
        have hkk : ¬(k = k₀) := fun hc => h₀ hc.symm
        simp [eraseNode, findNode, h₀, hkk]
      · simp [eraseNode, findNode, h₀, h] at ih ⊢
        simpa [eraseNode] using ih

theorem findChild_setChild (cm : List (NodeKey × Nat)) (k k' : NodeKey) (c : Nat) :
    findChild (setChild cm k c) k' = if k = k' then some c else findChild cm k' := by
  induction cm with
  | nil => by_cases h : k = k' <;> simp [setChild, findChild, h]
  | cons p rest ih =>
    obtain ⟨k₀, c₀⟩ := p
    by_cases h₀ : k₀ = k
    · subst h₀
      by_cases h : k₀ = k' <;> simp [setChild, findChild, h]
    · by_cases h : k₀ = k'
      · subst h
        have hkk : ¬(k = k₀) := fun hc => h₀ hc.symm
        simp [setChild, findChild, h₀, hkk]
      · simp [setChild, findChild, h₀, h, ih]

theorem mem_keys_of_findNode_isSome {m : Dirties} {k : NodeKey}
    (h : (findNode m k).isSome) : k ∈ m.map Prod.fst := by
  induction m with
  | nil => simp [findNode] at h
  | cons p rest ih =>
    by_cases h₀ : p.1 = k
    · simp [h₀]
    · rw [show findNode (p :: rest) k = findNode rest k by
        obtain ⟨a, b⟩ := p; simp_all [findNode]] at h
      simp [ih h]

/-! ## C4: node key codec round-trip and injectivity -/

/-- C4: For every `(owner, path, hash)` triple with 32-byte owner and hash
(including the zero owner and the empty path), decoding the encoded node key
returns the original triple, and the encoding is injective: two triples with
equal encodings are equal. -/
theorem encodeNodeKey_roundtrip_injective
    (o p h o' p' h' : List Nat)
    (ho : o.length = 32) (hh : h.length = 32)
    (ho' : o'.length = 32) (hh' : h'.length = 32) :
    decodeNodeKey (encodeNodeKey o p h) = (o, p, h) ∧
    (encodeNodeKey o p h = encodeNodeKey o' p' h' → o = o' ∧ p = p' ∧ h = h') := by
  have round : ∀ (a b c : List Nat), a.length = 32 → c.length = 32 →
      decodeNodeKey (encodeNodeKey a b c) = (a, b, c) := by
    intro a b c ha hc
    have hl : (a ++ (b ++ c)).length = b.length + 64 := by
      simp [List.length_append, ha, hc]; omega
    have ht32 : (a ++ (b ++ c)).take 32 = a := List.take_left' ha
    have hd32 : (a ++ (b ++ c)).drop 32 = b ++ c := List.drop_left' ha
    have hmid : (a ++ (b ++ c)).length - 64 = b.length := by rw [hl]; omega
    have hlast : (a ++ (b ++ c)).length - 32 = a.length + b.length := by
      rw [hl, ha]; omega
    have hdrop : (a ++ (b ++ c)).drop ((a ++ (b ++ c)).length - 32) = c := by
      rw [hlast, show a.length + b.length = (a ++ b).length by simp,
        ← List.append_assoc]
      exact List.drop_left (a ++ b) c
    simp only [encodeNodeKey, decodeNodeKey, Prod.mk.injEq, List.append_assoc]
    refine ⟨ht32, ?_, hdrop⟩
    rw [hd32, hmid]
    exact List.take_left b c
  refine ⟨round o p h ho hh, fun heq => ?_⟩
  have key : (o, p, h) = (o', p', h') := by
    rw [← round o p h ho hh, heq, round o' p' h' ho' hh']
  exact ⟨congrArg (fun q => q.1) key, congrArg (fun q => q.2.1) key,
    congrArg (fun q => q.2.2) key⟩

/-! ## Shared concrete states for witnesses -/

/-- The meta-root entry as created by `NewDatabaseWithConfig`. -/
def metaEntry : CachedNode :=
  { node := .nilNode, size := 0, parents := 0, children := some [],
    flushPrev := metaRoot, flushNext := metaRoot }

/-- A freshly created database (only the meta root is tracked). -/
def db0 : DB :=
  { dirties := [(metaRoot, metaEntry)], oldest := metaRoot, newest := metaRoot,
    preimages := none, dirtiesSize := 0, childrenSize := 0, preimagesSize := 0 }

/-- Witness for C4 at a concrete triple: the zero owner, the empty path and a
concrete hash round-trip, and a distinct pair of encodings separates. -/
theorem encodeNodeKey_roundtrip_injective_witness :
    decodeNodeKey (encodeNodeKey (List.replicate 32 0) [] (List.replicate 32 1)) =
      (List.replicate 32 0, [], List.replicate 32 1) ∧
    (encodeNodeKey (List.replicate 32 0) [] (List.replicate 32 1) =
        encodeNodeKey (List.replicate 32 0) [7] (List.replicate 32 1) →
      List.replicate 32 (0 : Nat) = List.replicate 32 0 ∧ ([] : List Nat) = [7] ∧
        List.replicate 32 (1 : Nat) = List.replicate 32 1) :=
  encodeNodeKey_roundtrip_injective (List.replicate 32 0) [] (List.replicate 32 1)
    (List.replicate 32 0) [7] (List.replicate 32 1)
    (by decide) (by decide) (by decide) (by decide)

/-! ## C6: `insert` characterization -/

theorem findNode_some_mem {m : Dirties} {k : NodeKey} {c : CachedNode}
    (h : findNode m k = some c) : (k, c) ∈ m := by
  induction m with
  | nil => simp [findNode] at h
  | cons p rest ih =>
    obtain ⟨k₀, n₀⟩ := p
    by_cases h₀ : k₀ = k
    · subst h₀
      simp [findNode] at h
      simp [h]
    · simp [findNode, h₀] at h
      simp [ih h]

theorem mem_setNode {m : Dirties} {k : NodeKey} {n : CachedNode} {p : NodeKey × CachedNode}
    (h : p ∈ setNode m k n) : p ∈ m ∨ p = (k, n) := by
  induction m with
  | nil => simp [setNode] at h; simp [h]
  | cons q rest ih =>
    obtain ⟨k₀, n₀⟩ := q
    by_cases h₀ : k₀ = k
    · subst h₀
      simp [setNode] at h
      rcases h with h | h
      · right; simp [h]
      · left; simp [h]
    · simp [setNode, h₀] at h
      rcases h with h | h
      · left; simp [h]
      · rcases ih h with h' | h'
        · left; simp [h']
        · right; exact h'

/-- The number of embedded references of one node that resolve to the key
`k` (each occurrence increments the resident child's counter once). -/
def countRefs (owner : Hash) (refs : List (Path × Hash)) (k : NodeKey) : Nat :=
  (refs.filter (fun pr => decide ((⟨owner, pr.1, pr.2⟩ : NodeKey) = k))).length

theorem findNode_refIncr (owner : Hash) (m : Dirties) (refs : List (Path × Hash))
    (k : NodeKey) (hb : ∀ p ∈ m, p.2.parents < uint32Mod) :
    findNode (refIncr owner m refs) k =
      (findNode m k).map (fun c =>
        { c with parents := (c.parents + countRefs owner refs k) % uint32Mod }) := by
  induction refs generalizing m with
  | nil =>
    cases hf : findNode m k with
    | none => simp [refIncr, countRefs, hf]
    | some c =>
      have hc : c.parents < uint32Mod := hb (k, c) (findNode_some_mem hf)
      simp [refIncr, countRefs, hf, Nat.mod_eq_of_lt hc]
  | cons pr rest ih =>
    have hstep : refIncr owner m (pr :: rest) =
        refIncr owner
          (match findNode m ⟨owner, pr.1, pr.2⟩ with
           | some c => setNode m ⟨owner, pr.1, pr.2⟩
               { c with parents := (c.parents + 1) % uint32Mod }
           | none => m) rest := rfl
    rw [hstep]
    cases hf : findNode m ⟨owner, pr.1, pr.2⟩ with
    | none =>
      rw [ih m hb]
      by_cases hk : (⟨owner, pr.1, pr.2⟩ : NodeKey) = k
      · subst hk
        rw [hf]
        simp
      · have : countRefs owner (pr :: rest) k = countRefs owner rest k := by
          simp [countRefs, List.filter, hk]
        rw [this]
    | some c =>
      have hb' : ∀ p ∈ setNode m ⟨owner, pr.1, pr.2⟩
          { c with parents := (c.parents + 1) % uint32Mod }, p.2.parents < uint32Mod := by
        intro p hp
        rcases mem_setNode hp with h | h
        · exact hb p h
        · subst h
          exact Nat.mod_lt _ (by simp [uint32Mod])
      rw [ih _ hb']
      rw [findNode_setNode]
      by_cases hk : (⟨owner, pr.1, pr.2⟩ : NodeKey) = k
      · rw [if_pos hk]
        subst hk
        rw [hf]
        have hcnt : countRefs owner (pr :: rest) ⟨owner, pr.1, pr.2⟩ =
            countRefs owner rest ⟨owner, pr.1, pr.2⟩ + 1 := by
          simp [countRefs, List.filter]
        rw [hcnt]
        simp only [Option.map_some']
        have : ((c.parents + 1) % uint32Mod +
            countRefs owner rest ⟨owner, pr.1, pr.2⟩) % uint32Mod =
            (c.parents + (countRefs owner rest ⟨owner, pr.1, pr.2⟩ + 1)) % uint32Mod := by
          rw [Nat.mod_add_mod]
          ring_nf
        rw [this]
      · rw [if_neg hk]
        have : countRefs owner (pr :: rest) k = countRefs owner rest k := by
          simp [countRefs, List.filter, hk]
        rw [this]

/-- C6: `insert` of a key already in the dirty map is a no-op leaving the
entire state unchanged; for a fresh key, `insert` bumps the parent counter of
each already-resident embedded child once per reference (and only those,
`countRefs` being zero elsewhere), stores the new entry at the flush-list
tail (the previous tail's `flushNext` now points at it) and adds the entry's
size to the tracked dirty-set size. -/
theorem insert_spec (db : DB) (owner : Hash) (path : Path) (hash : Hash)
    (size : Nat) (node : TrieNode)
    (hb : ∀ p ∈ db.dirties, p.2.parents < uint32Mod)
    (hnw : db.oldest ≠ metaRoot → db.newest ≠ ⟨owner, path, hash⟩) :
    (findNode db.dirties ⟨owner, path, hash⟩ ≠ none →
      insert db owner path hash size node = some db) ∧
    (findNode db.dirties ⟨owner, path, hash⟩ = none →
      ∀ db', insert db owner path hash size node = some db' →
        findNode db'.dirties ⟨owner, path, hash⟩ =
          some { node := node, size := size % uint16Mod, parents := 0, children := none,
                 flushPrev := db.newest, flushNext := metaRoot } ∧
        (∀ k, k ≠ ⟨owner, path, hash⟩ →
          findNode db'.dirties k =
            if k = db.newest ∧ db.oldest ≠ metaRoot then
              (findNode db.dirties k).map (fun c =>
                { c with
                  parents := (c.parents + countRefs owner (collectRefs node path) k) % uint32Mod,
                  flushNext := ⟨owner, path, hash⟩ })
            else
              (findNode db.dirties k).map (fun c =>
                { c with
                  parents := (c.parents + countRefs owner (collectRefs node path) k) % uint32Mod })) ∧
        db'.newest = ⟨owner, path, hash⟩ ∧
        db'.oldest = (if db.oldest = metaRoot then ⟨owner, path, hash⟩ else db.oldest) ∧
        db'.dirtiesSize = db.dirtiesSize + ((hashLength + size % uint16Mod : Nat) : Int) ∧
        db'.childrenSize = db.childrenSize) := by
  constructor
  · intro h
    cases hf : findNode db.dirties ⟨owner, path, hash⟩ with
    | none => exact absurd hf h
    | some c => simp [insert, hf]
  · intro h0 db' hins
    simp only [insert, h0] at hins
    by_cases hold : db.oldest = metaRoot
    · rw [if_pos hold] at hins
      injection hins with hdb
      subst hdb
      refine ⟨?_, ?_, rfl, by rw [if_pos hold], rfl, rfl⟩
      · rw [findNode_setNode, if_pos rfl]
      · intro k hk
        have hcond : ¬(k = db.newest ∧ db.oldest ≠ metaRoot) := fun hc => hc.2 hold
        rw [if_neg hcond, findNode_setNode, if_neg (fun hc => hk hc.symm)]
        exact findNode_refIncr owner db.dirties (collectRefs node path) k hb
    · rw [if_neg hold] at hins
      have hnewk : db.newest ≠ (⟨owner, path, hash⟩ : NodeKey) := hnw hold
      cases hprev : findNode
          (setNode (refIncr owner db.dirties (collectRefs node path)) ⟨owner, path, hash⟩
            { node := node, size := size % uint16Mod, parents := 0, children := none,
              flushPrev := db.newest, flushNext := metaRoot }) db.newest with
      | none => rw [hprev] at hins; cases hins
      | some prev =>
        rw [hprev] at hins
        injection hins with hdb
        subst hdb
        have hprev' : findNode (refIncr owner db.dirties (collectRefs node path)) db.newest =
            some prev := by
          rw [findNode_setNode, if_neg (fun hc => hnewk hc.symm)] at hprev
          exact hprev
        rw [findNode_refIncr owner db.dirties (collectRefs node path) db.newest hb] at hprev'
        refine ⟨?_, ?_, rfl, by rw [if_neg hold], rfl, rfl⟩
        · rw [findNode_setNode, if_neg hnewk, findNode_setNode, if_pos rfl]
        · intro k hk
          by_cases hknew : k = db.newest
          · rw [if_pos ⟨hknew, hold⟩, findNode_setNode, if_pos hknew.symm, hknew]
            cases hfk : findNode db.dirties db.newest with
            | none => rw [hfk] at hprev'; cases hprev'
            | some c =>
              rw [hfk] at hprev'
              simp only [Option.map_some', Option.some.injEq] at hprev'
              simp [hfk, ← hprev']
          · have hcond : ¬(k = db.newest ∧ db.oldest ≠ metaRoot) := fun hc => hknew hc.1
            rw [if_neg hcond, findNode_setNode, if_neg (fun hc => hknew hc.symm),
              findNode_setNode, if_neg (fun hc => hk hc.symm)]
            exact findNode_refIncr owner db.dirties (collectRefs node path) k hb

/-- Witness for C6: inserting a fresh leaf node into a fresh database places
it at the flush-list tail with the recorded size. -/
theorem insert_spec_witness :
    findNode ((insert db0 0 [] 9 10 .nilNode).getD db0).dirties ⟨0, [], 9⟩ =
      some { node := .nilNode, size := 10 % uint16Mod, parents := 0, children := none,
             flushPrev := db0.newest, flushNext := metaRoot } ∧
    ((insert db0 0 [] 9 10 .nilNode).getD db0).newest = ⟨0, [], 9⟩ := by
  have h := (insert_spec db0 0 [] 9 10 .nilNode (by decide) (fun h => absurd rfl h)).2 rfl
    ((insert db0 0 [] 9 10 .nilNode).getD db0) rfl
  exact ⟨h.1, h.2.2.1⟩

/-! ## C3: `dereference` visit of a child -/

theorem derefParentEdge_facts (db : DB) (pk ck : NodeKey) (par : CachedNode) :
    (derefParentEdge db pk ck par).oldest = db.oldest ∧
    (derefParentEdge db pk ck par).newest = db.newest ∧
    (derefParentEdge db pk ck par).dirtiesSize = db.dirtiesSize ∧
    (∀ k, k ≠ pk → findNode (derefParentEdge db pk ck par).dirties k =
      findNode db.dirties k) := by
  cases hch : par.children with
  | none =>
    have hid : derefParentEdge db pk ck par = db := by
      simp [derefParentEdge, hch]
    rw [hid]
    exact ⟨rfl, rfl, rfl, fun k _ => rfl⟩
  | some cm =>
    by_cases h1 : 0 < findChildD cm ck
    · by_cases h2 : findChildD cm ck - 1 = 0
      · have hid : derefParentEdge db pk ck par =
            { db with
              dirties := setNode db.dirties pk
                { par with children := some (eraseChild cm ck) },
              childrenSize := db.childrenSize - ((hashLength : Nat) + 2 : Nat) } := by
          simp [derefParentEdge, hch, h1, h2]
        rw [hid]
        exact ⟨rfl, rfl, rfl, fun k hk => by
          rw [findNode_setNode, if_neg (fun hc => hk hc.symm)]⟩
      · have hid : derefParentEdge db pk ck par =
            { db with
              dirties := setNode db.dirties pk
                { par with children := some (setChild cm ck (findChildD cm ck - 1)) } } := by
          simp [derefParentEdge, hch, h1, h2]
        rw [hid]
        exact ⟨rfl, rfl, rfl, fun k hk => by
          rw [findNode_setNode, if_neg (fun hc => hk hc.symm)]⟩
    · have hid : derefParentEdge db pk ck par = db := by
        simp [derefParentEdge, hch, h1]
      rw [hid]
      exact ⟨rfl, rfl, rfl, fun k _ => rfl⟩

/-- C3: When `dereference` visits a tracked child, the child's parent
counter is decremented (saturating at zero); a child whose counter is still
positive after the decrement keeps its entry (with only the counter changed)
and nothing else in the dirty map or flush list is touched beyond the
parent's edge counter, while a child whose counter reaches zero is removed
from the dirty map (its own children having been recursively dereferenced
before the removal). -/
theorem dereference_visit_child (fuel : Nat) (db : DB)
    (childOwner childHash : Hash) (childPath : Path)
    (parentOwner parentHash : Hash) (parentPath : Path) (e par : CachedNode)
    (hchild : findNode db.dirties ⟨childOwner, childPath, childHash⟩ = some e)
    (hparent : findNode db.dirties ⟨parentOwner, parentPath, parentHash⟩ = some par)
    (hne : (⟨parentOwner, parentPath, parentHash⟩ : NodeKey) ≠
      ⟨childOwner, childPath, childHash⟩) :
    (2 ≤ e.parents →
      ∃ db', dereference (fuel + 1) db childOwner childHash childPath
          parentOwner parentHash parentPath = some db' ∧
        findNode db'.dirties ⟨childOwner, childPath, childHash⟩ =
          some { e with parents := e.parents - 1 } ∧
        (∀ k, k ≠ ⟨childOwner, childPath, childHash⟩ →
          k ≠ ⟨parentOwner, parentPath, parentHash⟩ →
          findNode db'.dirties k = findNode db.dirties k) ∧
        db'.oldest = db.oldest ∧ db'.newest = db.newest ∧
        db'.dirtiesSize = db.dirtiesSize) ∧
    (e.parents ≤ 1 →
      ∀ db', dereference (fuel + 1) db childOwner childHash childPath
          parentOwner parentHash parentPath = some db' →
        findNode db'.dirties ⟨childOwner, childPath, childHash⟩ = none) := by
  have hE := derefParentEdge_facts db ⟨parentOwner, parentPath, parentHash⟩
    ⟨childOwner, childPath, childHash⟩ par
  have hEchild : findNode (derefParentEdge db ⟨parentOwner, parentPath, parentHash⟩
      ⟨childOwner, childPath, childHash⟩ par).dirties
      ⟨childOwner, childPath, childHash⟩ = some e := by
    rw [hE.2.2.2 _ (fun hc => hne hc.symm)]
    exact hchild
  constructor
  · intro h2
    have hpos : 0 < e.parents := by omega
    have hnz : ¬(e.parents - 1 = 0) := by omega
    simp only [dereference, hparent, hEchild, if_pos hpos, if_neg hnz]
    refine ⟨_, rfl, ?_, ?_, ?_, ?_, ?_⟩
    · rw [findNode_setNode, if_pos rfl]
    · intro k hk1 hk2
      rw [findNode_setNode, if_neg (fun hc => hk1 hc.symm)]
      exact hE.2.2.2 k (fun hc => hk2 hc)
    · exact hE.1
    · exact hE.2.1
    · exact hE.2.2.1
  · intro h1 db' hd
    simp only [dereference, hparent, hEchild] at hd
    by_cases hpos : 0 < e.parents
    · have hz : e.parents - 1 = 0 := by omega
      rw [if_pos hpos, if_pos hz] at hd
      split at hd
      · cases hd
      · split at hd
        · cases hd
        · injection hd with hdb
          subst hdb
          rw [findNode_eraseNode, if_pos rfl]
    · have hz : e.parents = 0 := by omega
      rw [if_neg hpos, if_pos hz] at hd
      split at hd
      · cases hd
      · split at hd
        · cases hd
        · injection hd with hdb
          subst hdb
          rw [findNode_eraseNode, if_pos rfl]

/-- The child entry (with two live parents) for the C3 witness. -/
def d3Child : CachedNode :=
  { node := .nilNode, size := 4, parents := 2, children := none,
    flushPrev := metaRoot, flushNext := metaRoot }

/-- The meta-root entry holding one edge to the child, for the C3 witness. -/
def d3Meta : CachedNode := { metaEntry with children := some [(⟨0, [], 5⟩, 1)] }

/-- A database with a doubly referenced node, for the C3 witness. -/
def db3 : DB :=
  { dirties := [(metaRoot, d3Meta), (⟨0, [], 5⟩, d3Child)],
    oldest := ⟨0, [], 5⟩, newest := ⟨0, [], 5⟩, preimages := none,
    dirtiesSize := 36, childrenSize := 34, preimagesSize := 0 }

/-- Witness for C3: dereferencing a child with two live parents decrements
its counter and leaves it tracked and otherwise untouched. -/
theorem dereference_visit_child_witness :
    ∃ db', dereference 6 db3 0 5 [] 0 0 [] = some db' ∧
      findNode db'.dirties ⟨0, [], 5⟩ = some { d3Child with parents := d3Child.parents - 1 } ∧
      (∀ k, k ≠ (⟨0, [], 5⟩ : NodeKey) → k ≠ (⟨0, [], 0⟩ : NodeKey) →
        findNode db'.dirties k = findNode db3.dirties k) ∧
      db'.oldest = db3.oldest ∧ db'.newest = db3.newest ∧
      db'.dirtiesSize = db3.dirtiesSize :=
  (dereference_visit_child 5 db3 0 5 [] 0 0 [] d3Child d3Meta rfl rfl
    (by decide)).1 (by decide)

/-! ## C10: `Reference` on an untracked child is a complete no-op -/

/-- C10: When the child key `(owner, empty path, child hash)` is not in the
dirty map, `Reference` returns without modifying any state: no parent
counter, no children map, no size counter and no flush-list pointer changes
(the returned database is the input database). -/
theorem reference_untracked_child_noop (db : DB) (owner child parent : Hash)
    (parentPath : Path)
    (h : findNode db.dirties ⟨owner, [], child⟩ = none) :
    reference db owner child parent parentPath = some db := by
  unfold reference
  simp [h]

/-- Witness for C10: referencing an absent child on a fresh database. -/
theorem reference_untracked_child_noop_witness :
    reference db0 1 2 3 [] = some db0 :=
  reference_untracked_child_noop db0 1 2 3 [] rfl

/-! ## C5: duplicate `Reference` edges -/

/-- C5: When a `Reference(owner, child, parent, parentPath)` edge already
exists (the child is dirty and the parent's children map already counts the
child key): for a non-zero parent hash the duplicate call is a complete
no-op; for the zero (block-root) parent hash the duplicate call increments
the child's parent counter and the edge multiplicity again. -/
theorem reference_duplicate_edge (db : DB) (owner child parent : Hash)
    (parentPath : Path) (childEntry parentEntry : CachedNode)
    (cm : List (NodeKey × Nat)) (cnt : Nat)
    (hchild : findNode db.dirties ⟨owner, [], child⟩ = some childEntry)
    (hparent : findNode db.dirties ⟨0, parentPath, parent⟩ = some parentEntry)
    (hcm : parentEntry.children = some cm)
    (hedge : findChild cm ⟨owner, [], child⟩ = some cnt)
    (hne : (⟨owner, [], child⟩ : NodeKey) ≠ ⟨0, parentPath, parent⟩) :
    (parent ≠ 0 → reference db owner child parent parentPath = some db) ∧
    (parent = 0 →
      ∃ db', reference db owner child parent parentPath = some db' ∧
        findNode db'.dirties ⟨owner, [], child⟩ =
          some { childEntry with parents := (childEntry.parents + 1) % uint32Mod } ∧
        findNode db'.dirties ⟨0, parentPath, parent⟩ =
          some { parentEntry with
            children := some (setChild cm ⟨owner, [], child⟩ ((cnt + 1) % uint16Mod)) } ∧
        (∀ k, k ≠ ⟨owner, [], child⟩ → k ≠ ⟨0, parentPath, parent⟩ →
          findNode db'.dirties k = findNode db.dirties k) ∧
        db'.oldest = db.oldest ∧ db'.newest = db.newest ∧
        db'.dirtiesSize = db.dirtiesSize) := by
  have hne' : (⟨0, parentPath, parent⟩ : NodeKey) ≠ ⟨owner, [], child⟩ :=
    fun hc => hne hc.symm
  have hcd : findChildD cm ⟨owner, [], child⟩ = cnt := by
    simp [findChildD, hedge]
  constructor
  · intro hp
    simp only [reference, hchild, hparent, hcm, hedge, Option.isSome_some, true_and]
    rw [if_pos hp]
  · intro hp0
    subst hp0
    simp only [reference, hchild, hparent, hcm]
    rw [if_neg (by simp)]
    simp only [referenceFinish, hchild]
    rw [show findNode (setNode db.dirties ⟨owner, [], child⟩
          { childEntry with parents := (childEntry.parents + 1) % uint32Mod })
        (⟨0, parentPath, 0⟩ : NodeKey) = some parentEntry by
      rw [findNode_setNode, if_neg hne]; exact hparent]
    simp only [hcm, hcd]
    by_cases hone : (cnt + 1) % uint16Mod = 1
    · rw [if_pos hone]
      refine ⟨_, rfl, ?_, ?_, ?_, rfl, rfl, rfl⟩
      · rw [findNode_setNode, if_neg hne', findNode_setNode, if_pos rfl]
      · rw [findNode_setNode, if_pos rfl]
      · intro k hk1 hk2
        rw [findNode_setNode, if_neg (fun hc => hk2 hc.symm),
          findNode_setNode, if_neg (fun hc => hk1 hc.symm)]
    · rw [if_neg hone]
      refine ⟨_, rfl, ?_, ?_, ?_, rfl, rfl, rfl⟩
      · rw [findNode_setNode, if_neg hne', findNode_setNode, if_pos rfl]
      · rw [findNode_setNode, if_pos rfl]
      · intro k hk1 hk2
        rw [findNode_setNode, if_neg (fun hc => hk2 hc.symm),
          findNode_setNode, if_neg (fun hc => hk1 hc.symm)]

/-- The child entry used by the C5 witness. -/
def dupChildKey : NodeKey := ⟨0, [], 5⟩

/-- The child entry used by the C5 witness. -/
def dupChildEntry : CachedNode :=
  { node := .nilNode, size := 4, parents := 1, children := none,
    flushPrev := metaRoot, flushNext := metaRoot }

/-- The meta-root entry holding one edge to the child, for the C5 witness. -/
def dupMetaEntry : CachedNode := { metaEntry with children := some [(dupChildKey, 1)] }

/-- A database holding one externally referenced node, for the C5 witness. -/
def db5 : DB :=
  { dirties := [(metaRoot, dupMetaEntry), (dupChildKey, dupChildEntry)],
    oldest := dupChildKey, newest := dupChildKey, preimages := none,
    dirtiesSize := 36, childrenSize := 34, preimagesSize := 0 }

/-- Witness for C5: a duplicate zero-parent (block root) reference on a
concrete state increments the counters again. -/
theorem reference_duplicate_edge_witness :
    ∃ db', reference db5 0 5 0 [] = some db' ∧
      findNode db'.dirties ⟨0, [], 5⟩ =
        some { dupChildEntry with parents := (dupChildEntry.parents + 1) % uint32Mod } ∧
      findNode db'.dirties ⟨0, [], 0⟩ =
        some { dupMetaEntry with
          children := some (setChild [(dupChildKey, 1)] ⟨0, [], 5⟩ ((1 + 1) % uint16Mod)) } ∧
      (∀ k, k ≠ ⟨0, [], 5⟩ → k ≠ ⟨0, [], 0⟩ →
        findNode db'.dirties k = findNode db5.dirties k) ∧
      db'.oldest = db5.oldest ∧ db'.newest = db5.newest ∧
      db'.dirtiesSize = db5.dirtiesSize :=
  (reference_duplicate_edge db5 0 5 0 [] dupChildEntry dupMetaEntry
    [(dupChildKey, 1)] 1 rfl rfl rfl rfl (by decide)).2 rfl

/-! ## C7: pruner loop signal gating -/

/-- C7: A block-height signal is ignored while paused, ignored while a run is
in flight, and ignored below the minimal confirmation count; otherwise the
launched run covers exactly the tracked records with block number strictly
below `signal - minBlockConfirms`. -/
theorem signalStep_spec (paused running : Bool) (records : List CommitRecordMeta)
    (number : Nat) :
    (paused = true → signalStep paused running records number = none) ∧
    (running = true → signalStep paused running records number = none) ∧
    (number < minBlockConfirms → signalStep paused running records number = none) ∧
    (∀ ret, signalStep paused running records number = some ret →
      paused = false ∧ running = false ∧ minBlockConfirms ≤ number ∧
      ∀ r, r ∈ ret ↔ r ∈ records ∧ r.number < number - minBlockConfirms) := by
  refine ⟨?_, ?_, ?_, ?_⟩
  · intro hp; subst hp; simp [signalStep]
  · intro hr; subst hr; cases paused <;> simp [signalStep]
  · intro hn; cases paused <;> cases running <;> simp [signalStep, hn]
  · intro ret h
    cases paused with
    | true => simp [signalStep] at h
    | false =>
    cases running with
    | true => simp [signalStep] at h
    | false =>
    by_cases hn : number < minBlockConfirms
    · simp [signalStep, hn] at h
    · simp only [signalStep, Bool.false_eq_true, if_false, hn] at h
      by_cases he : (filterRecords records (number - minBlockConfirms)).isEmpty
      · simp [he] at h
      · simp only [he, Bool.false_eq_true, if_false, Option.some.injEq] at h
        refine ⟨rfl, rfl, Nat.not_lt.mp hn, ?_⟩
        intro r
        rw [← h]
        simp [filterRecords, List.mem_filter]

/-- Witness for C7: on a concrete signal, the launched set is exactly the
old-enough records. -/
theorem signalStep_spec_witness :
    minBlockConfirms ≤ 5000 ∧
    ∀ r, r ∈ [(⟨10, 1⟩ : CommitRecordMeta)] ↔
      r ∈ [(⟨10, 1⟩ : CommitRecordMeta)] ∧ r.number < 5000 - minBlockConfirms := by
  have h := (signalStep_spec false false [⟨10, 1⟩] 5000).2.2.2 [⟨10, 1⟩] rfl
  exact ⟨h.2.2.1, h.2.2.2⟩

/-! ## C9: commit-record cap at `commitStart` -/

/-- C9: With no window already open, `commitStart` creates a fresh record iff
the number of live tracked records is strictly below the configured cap; at
the cap the state is unchanged and subsequent non-partial `addKey` calls land
in the clean-key list, attributed to no record. -/
theorem commitStart_record_cap (p : PrunerState) (number : Nat) (hash : Hash)
    (hcur : p.current = none) :
    (p.records.length < p.maximumRecords →
      commitStart p number hash =
        some { p with current := some ⟨number, hash, []⟩ }) ∧
    (p.maximumRecords ≤ p.records.length →
      commitStart p number hash = some p ∧
      ∀ key, addKey p key false =
        { p with written := p.written + 1, cleanKeys := p.cleanKeys ++ [key] }) := by
  constructor
  · intro hlt
    unfold commitStart
    rw [hcur]
    simp [Nat.not_le.mpr hlt]
  · intro hge
    refine ⟨?_, fun key => ?_⟩
    · unfold commitStart
      rw [hcur]
      simp [hge]
    · unfold addKey
      simp [hcur]

/-- Witness for C9: with a zero record cap, the commit proceeds untracked and
a written key lands in the clean-key list. -/
theorem commitStart_record_cap_witness :
    commitStart ⟨[], none, [], [], 0, 0⟩ 5 6 = some ⟨[], none, [], [], 0, 0⟩ ∧
    addKey ⟨[], none, [], [], 0, 0⟩ metaRoot false = ⟨[], none, [], [metaRoot], 0, 1⟩ := by
  have h := (commitStart_record_cap ⟨[], none, [], [], 0, 0⟩ 5 6 rfl).2 (Nat.le_refl 0)
  exact ⟨h.1, h.2 metaRoot⟩

/-! ## C8: pruning run skips non-canonical and unreadable records -/

/-- C8: During a pruning run (uninterrupted at this record), a record the
canonicality oracle rejects has only its metadata removed — the persisted
trie nodes are untouched — and the run continues with the remaining records;
a record that fails to read back is likewise discarded and the run continues
rather than aborting. -/
theorem pruningRun_skip_records
    (isCanonical : Nat → Hash → Bool) (readRecord : Nat → Hash → Option (List NodeKey))
    (deleteStaleFn : CommitRecordMeta → List NodeKey → PruneState → Option PruneState)
    (interruptAt : Nat → Bool) (r : CommitRecordMeta) (rest : List CommitRecordMeta)
    (idx : Nat) (st : PruneState) (hint : interruptAt idx = false) :
    (isCanonical r.number r.hash = false →
      pruningRun isCanonical readRecord deleteStaleFn interruptAt (r :: rest) idx st =
        (removeRecordSt st r).bind
          (fun st' => pruningRun isCanonical readRecord deleteStaleFn interruptAt
            rest (idx + 1) st')) ∧
    (isCanonical r.number r.hash = true → readRecord r.number r.hash = none →
      pruningRun isCanonical readRecord deleteStaleFn interruptAt (r :: rest) idx st =
        (removeRecordSt st r).bind
          (fun st' => pruningRun isCanonical readRecord deleteStaleFn interruptAt
            rest (idx + 1) st')) ∧
    (∀ st', removeRecordSt st r = some st' →
      st'.diskNodes = st.diskNodes ∧
      st'.records = st.records.filter
        (fun x => decide (¬(x.number = r.number ∧ x.hash = r.hash))) ∧
      st'.diskRecords = st.diskRecords.filter
        (fun x => decide (¬(x.number = r.number ∧ x.hash = r.hash)))) := by
  refine ⟨?_, ?_, ?_⟩
  · intro hcanon
    cases hrm : removeRecordSt st r <;>
      simp [pruningRun, hint, hcanon, hrm]
  · intro hcanon hread
    cases hrm : removeRecordSt st r <;>
      simp [pruningRun, hint, hcanon, hread, hrm]
  · intro st' h
    unfold removeRecordSt at h
    split at h
    · cases h
      exact ⟨rfl, rfl, rfl⟩
    · cases h

/-- Witness for C8: a concrete non-canonical record is dropped and the run
continues. -/
theorem pruningRun_skip_records_witness :
    pruningRun (fun _ _ => false) (fun _ _ => none) (fun _ _ _ => none) (fun _ => false)
      [⟨1, 2⟩] 0 ⟨[⟨1, 2⟩], [⟨1, 2⟩], []⟩ =
      (removeRecordSt ⟨[⟨1, 2⟩], [⟨1, 2⟩], []⟩ ⟨1, 2⟩).bind
        (fun st' => pruningRun (fun _ _ => false) (fun _ _ => none) (fun _ _ _ => none)
          (fun _ => false) [] 1 st') :=
  (pruningRun_skip_records (fun _ _ => false) (fun _ _ => none) (fun _ _ _ => none)
    (fun _ => false) ⟨1, 2⟩ [] 0 ⟨[⟨1, 2⟩], [⟨1, 2⟩], []⟩ rfl).1 rfl

/-! ## C1: error behaviour of `Cap` and `Commit`

The two-phase write-then-uncache discipline: `Cap` uncaches nothing before
its final write succeeded, so an error leaves the in-memory state untouched.
`Commit`, however, replays every *intermediate* batch into the uncacher as
soon as that batch is durably written, so a later error can return with keys
already gone from the dirty map — but only keys that are already durable on
disk. -/

/-- Everything durably on disk stays on disk. -/
def DiskExtends (d d' : Disk) : Prop := ∀ kv ∈ d.nodes, kv ∈ d'.nodes

/-- Every key that left the dirty map is durably on disk. -/
def UncacheCovered (db db' : DB) (d' : Disk) : Prop :=
  ∀ k, (findNode db.dirties k).isSome → findNode db'.dirties k = none →
    ∃ t, (k, t) ∈ d'.nodes

/-- The commit invariant: the disk only grows and uncached keys are durable. -/
def Good (s t : DB × Disk) : Prop := DiskExtends s.2 t.2 ∧ UncacheCovered s.1 t.1 t.2

theorem Good_refl (s : DB × Disk) : Good s s := by
  refine ⟨fun kv h => h, fun k hs hn => ?_⟩
  rw [hn] at hs
  cases hs

theorem Good_trans {s t u : DB × Disk} (h1 : Good s t) (h2 : Good t u) : Good s u := by
  refine ⟨fun kv hk => h2.1 kv (h1.1 kv hk), fun k hs hn => ?_⟩
  cases hf : findNode t.1.dirties k with
  | none =>
    obtain ⟨v, hv⟩ := h1.2 k hs hf
    exact ⟨v, h2.1 (k, v) hv⟩
  | some c => exact h2.2 k (by rw [hf]; rfl) hn

theorem isSome_findNode_setNode (m : Dirties) (a k : NodeKey) (v : CachedNode)
    (h : (findNode m k).isSome) : (findNode (setNode m a v) k).isSome := by
  rw [findNode_setNode]
  by_cases ha : a = k
  · simp [ha]
  · simp [ha, h]

theorem unlinkFlush_preserves_isSome {db : DB} {k : NodeKey} {node : CachedNode}
    {db1 : DB} (h : unlinkFlush db k node = some db1) (k' : NodeKey)
    (hs : (findNode db.dirties k').isSome) : (findNode db1.dirties k').isSome := by
  simp only [unlinkFlush] at h
  split at h
  · split at h
    · cases h
    · injection h with h'
      subst h'
      exact isSome_findNode_setNode _ _ _ _ hs
  · split at h
    · split at h
      · cases h
      · injection h with h'
        subst h'
        exact isSome_findNode_setNode _ _ _ _ hs
    · split at h
      · cases h
      · split at h
        · cases h
        · injection h with h'
          subst h'
          exact isSome_findNode_setNode _ _ _ _ (isSome_findNode_setNode _ _ _ _ hs)

theorem uncacheKey_remove_subset {db : DB} {k : NodeKey} {db' : DB}
    (h : uncacheKey db k = some db') (k' : NodeKey)
    (hs : (findNode db.dirties k').isSome) (hn : findNode db'.dirties k' = none) :
    k' = k := by
  cases hf : findNode db.dirties k with
  | none =>
    simp only [uncacheKey, hf] at h
    injection h with h'
    subst h'
    rw [hn] at hs
    cases hs
  | some node =>
    simp only [uncacheKey, hf] at h
    cases hu : unlinkFlush db k node with
    | none => rw [hu] at h; cases h
    | some db1 =>
      rw [hu] at h
      injection h with h'
      subst h'
      by_cases hk : k' = k
      · exact hk
      · exfalso
        rw [findNode_eraseNode, if_neg (fun hc => hk hc.symm)] at hn
        have := unlinkFlush_preserves_isSome hu k' hs
        rw [hn] at this
        cases this

theorem foldUncache_remove_subset :
    ∀ (l : List (NodeKey × TrieNode)) (db db' : DB),
      l.foldlM (fun acc kv => uncacheKey acc kv.1) db = some db' →
      ∀ k, (findNode db.dirties k).isSome → findNode db'.dirties k = none →
        ∃ t, (k, t) ∈ l := by
  intro l
  induction l with
  | nil =>
    intro db db' h k hs hn
    rw [List.foldlM_nil] at h
    injection h with h'
    subst h'
    rw [hn] at hs
    cases hs
  | cons kv rest ih =>
    intro db db' h k hs hn
    rw [List.foldlM_cons] at h
    cases hu : uncacheKey db kv.1 with
    | none => rw [hu] at h; cases h
    | some db1 =>
      rw [hu] at h
      by_cases hk1 : (findNode db1.dirties k).isSome
      · obtain ⟨t, ht⟩ := ih db1 db' h k hk1 hn
        exact ⟨t, List.mem_cons_of_mem _ ht⟩
      · have hnone : findNode db1.dirties k = none := by
          cases hf : findNode db1.dirties k with
          | none => rfl
          | some c => rw [hf] at hk1; simp at hk1
        have hkk := uncacheKey_remove_subset hu k hs hnone
        refine ⟨kv.2, ?_⟩
        rw [hkk]
        exact List.mem_cons_self _ _

theorem batchWrite_some {fail : Nat → Bool} {d : Disk} {b : Batch} {d' : Disk}
    (h : batchWrite fail d b = some d') :
    DiskExtends d d' ∧ ∀ kv ∈ b.nodes, kv ∈ d'.nodes := by
  unfold batchWrite at h
  split at h
  · cases h
  · injection h with h'
    subst h'
    exact ⟨fun kv hk => List.mem_append_left _ hk,
      fun kv hk => List.mem_append_right _ hk⟩

/-- The `Good` relation lifted to the `(DB, Disk, Batch)` commit state. -/
def GoodB (s t : DB × Disk × Batch) : Prop := Good (s.1, s.2.1) (t.1, t.2.1)

theorem commitNode_good (fail : Nat → Bool) (rlpLen : TrieNode → Nat) :
    ∀ (fuel : Nat) (owner : Hash) (path : Path) (hash : Hash) (s : DB × Disk × Batch),
      ResRel GoodB s (commitNode fail rlpLen fuel owner path hash s) := by
  intro fuel
  induction fuel with
  | zero => intro owner path hash s; exact trivial
  | succ fuel ih =>
    intro owner path hash s
    obtain ⟨db, disk, batch⟩ := s
    cases hf : findNode db.dirties ⟨owner, path, hash⟩ with
    | none =>
      simp only [commitNode, hf]
      exact Good_refl _
    | some node =>
      simp only [commitNode, hf]
      have hfold1 := foldlM_resRel GoodB (fun _ _ _ => Good_trans) (fun _ => Good_refl _)
        (fun st pr => commitNode fail rlpLen fuel owner pr.1 pr.2 st)
        (collectRefs node.node path)
        (fun st pr _ => ih owner pr.1 pr.2 st) (db, disk, batch)
      split
      next e heq => rw [heq] at hfold1; exact hfold1
      next => exact trivial
      next st1 heq =>
        rw [heq] at hfold1
        have hfold2 := foldlM_resRel GoodB (fun _ _ _ => Good_trans) (fun _ => Good_refl _)
          (fun st ck => commitNode fail rlpLen fuel ck.1.owner ck.1.path ck.1.hash st)
          (node.children.getD [])
          (fun st ck _ => ih ck.1.owner ck.1.path ck.1.hash st) st1
        split
        next e heq2 => rw [heq2] at hfold2; exact Good_trans hfold1 hfold2
        next => exact trivial
        next db2 disk2 batch2 heq2 =>
          rw [heq2] at hfold2
          have hgood2 : GoodB (db, disk, batch) (db2, disk2, batch2) :=
            Good_trans hfold1 hfold2
          split
          · split
            next hw => exact hgood2
            next disk3 hw =>
              split
              next => exact trivial
              next db3 hr =>
                have hbw := batchWrite_some hw
                have hstep : Good (db2, disk2) (db3, disk3) := by
                  refine ⟨hbw.1, fun k hs hn => ?_⟩
                  obtain ⟨t, ht⟩ := foldUncache_remove_subset _ db2 db3 hr k hs hn
                  exact ⟨t, hbw.2 (k, t) ht⟩
                exact Good_trans hgood2 hstep
          · exact hgood2

/-- C1 (amended): On a disk I/O error, `Cap` propagates the error with the
in-memory database exactly as it was (no uncache at all), and
`Commit`/`CommitWithMetadata` propagate the error with the guarantee that
every key that has left the dirty map during the failed call was durably
written to disk beforehand (two-phase write-then-uncache; keys of batches
not yet durably written remain dirty). -/
theorem cap_commit_error_state (fail : Nat → Bool) (rlpLen : TrieNode → Nat)
    (db : DB) (disk : Disk) (limit : Int) (commitEndFails : Bool)
    (fuel number : Nat) (hash root : Hash) :
    (∀ db' disk', cap fail rlpLen db disk limit = .err (db', disk') → db' = db) ∧
    (∀ db' disk',
      commitTop fail rlpLen commitEndFails fuel number hash root db disk = .err (db', disk') →
      ∀ k, (findNode db.dirties k).isSome → findNode db'.dirties k = none →
        ∃ t, (k, t) ∈ disk'.nodes) := by
  constructor
  · intro db' disk' h
    simp only [cap] at h
    split at h
    next => exact Res.noConfusion h
    next me heq =>
      split at h
      next e heqPre =>
        injection h with h1
        split at heqPre
        · split at heqPre
          next => cases heqPre
          next pim hpim =>
            split at heqPre
            · split at heqPre
              next hw => injection heqPre with he; rw [← he] at h1; injection h1 with hdb hdk; exact hdb.symm
              next d1 hw => cases heqPre
            · cases heqPre
        · cases heqPre
      next heqPre => exact Res.noConfusion h
      next b0 d0 heqPre =>
        split at h
        next heqL => exact Res.noConfusion h
        next d heqL => injection h with h1; injection h1 with hdb hdk; exact hdb.symm
        next marker b1 d1 sz heqL =>
          split at h
          next hw => injection h with h1; injection h1 with hdb hdk; exact hdb.symm
          next disk2 hw =>
            repeat' split at h
            all_goals exact Res.noConfusion h
  · intro db' disk' h k hks hkn
    simp only [commitTop] at h
    have hcg := commitNode_good fail rlpLen fuel 0 [] root
    split at h
    next e heq =>
      injection h with h1
      split at heq
      next => cases heq
      next pim hpim =>
        split at heq
        next hw =>
          cases heq
          injection h1 with hdb hdk
          subst hdb
          rw [hkn] at hks
          cases hks
        next d1 hw => cases heq
    next => exact Res.noConfusion h
    next disk1 heq =>
      have hrel := hcg (db, disk1, emptyBatch)
      split at h
      next db1 d1 b1 hc =>
        rw [hc] at hrel
        injection h with h1
        injection h1 with hdb hdk
        subst hdb
        subst hdk
        exact hrel.2 k hks hkn
      next => exact Res.noConfusion h
      next db2 disk2 batch2 hc =>
        rw [hc] at hrel
        split at h
        next hw =>
          injection h with h1
          injection h1 with hdb hdk
          subst hdb
          subst hdk
          exact hrel.2 k hks hkn
        next disk3 hw =>
          split at h
          next hr => exact Res.noConfusion h
          next db3 hr =>
            have hbw := batchWrite_some hw
            have hstep : Good (db2, disk2) (db3, disk3) := by
              refine ⟨hbw.1, fun k' hs hn => ?_⟩
              obtain ⟨t, ht⟩ := foldUncache_remove_subset _ db2 db3 hr k' hs hn
              exact ⟨t, hbw.2 (k', t) ht⟩
            have hall : Good (db, disk1) (db3, disk3) := Good_trans hrel hstep
            split at h
            next hcond =>
              injection h with h1
              injection h1 with hdb hdk
              subst hdb
              subst hdk
              exact hall.2 k hks hkn
            next hcond => exact Res.noConfusion h

/-- The key of the node flushed by the intermediate batch in the C1
counterexample. -/
def cxChildKey : NodeKey := ⟨0, [1], 5⟩

/-- The key of the root node in the C1 counterexample. -/
def cxRootKey : NodeKey := ⟨0, [], 7⟩

/-- The child entry of the C1 counterexample. -/
def cxChildEntry : CachedNode :=
  { node := .nilNode, size := 4, parents := 1, children := none,
    flushPrev := metaRoot, flushNext := cxRootKey }

/-- The root entry of the C1 counterexample, embedding the child by hash. -/
def cxRootEntry : CachedNode :=
  { node := .rawShort [1] (.hashRef 5), size := 6, parents := 1, children := none,
    flushPrev := cxChildKey, flushNext := metaRoot }

/-- A two-node database (root plus embedded child) for the C1
counterexample. -/
def cxDB : DB :=
  { dirties := [(metaRoot, metaEntry), (cxChildKey, cxChildEntry), (cxRootKey, cxRootEntry)],
    oldest := cxChildKey, newest := cxRootKey, preimages := none,
    dirtiesSize := 74, childrenSize := 0, preimagesSize := 0 }

/-- An empty disk for the C1 counterexample. -/
def cxDisk : Disk := ⟨[], 0⟩

/-- An RLP size oracle making the child's batch exceed the ideal batch size
(the encoder is an external collaborator; sizes are instance data). -/
def cxRlpLen : TrieNode → Nat
  | .nilNode => 200000
  | _ => 10

/-- A failure schedule whose second disk write fails. -/
def cxFail : Nat → Bool := fun n => n == 1

/-- The state carried by an error result, if any. -/
def resErrState {ε α : Type} : Res ε α → Option ε
  | .err e => some e
  | _ => none

/-- Counterexample to C1 as stated: a `Commit` whose first (intermediate)
batch is durably written — uncaching the child — and whose final batch write
fails returns the I/O error with the child key no longer in the dirty map,
so a node key that was dirty before the call is gone when the call returns
with the error. -/
theorem commit_error_after_partial_uncache_cx :
    (resErrState (commitTop cxFail cxRlpLen false 10 0 0 7 cxDB cxDisk)).map
      (fun s => (findNode s.1.dirties cxChildKey).isNone) = some true ∧
    (findNode cxDB.dirties cxChildKey).isSome = true := ⟨rfl, rfl⟩

/-- Witness for the amended C1: on the concrete failing commit the uncached
child key is durably on the error disk, and a concrete failing `Cap` returns
its database unchanged. -/
theorem cap_commit_error_state_witness :
    db0 = db0 ∧
    ∃ t, (cxChildKey, t) ∈
      ((resErrState (commitTop cxFail cxRlpLen false 10 0 0 7 cxDB cxDisk)).getD
        (cxDB, cxDisk)).2.nodes :=
  ⟨(cap_commit_error_state (fun _ => true) (fun _ => 0) db0 ⟨[], 0⟩ (-1) false 0 0 0 0).1
      db0 ⟨[], 0⟩ (by rfl),
    (cap_commit_error_state cxFail cxRlpLen cxDB cxDisk 0 false 10 0 0 7).2
      ((resErrState (commitTop cxFail cxRlpLen false 10 0 0 7 cxDB cxDisk)).getD
        (cxDB, cxDisk)).1
      ((resErrState (commitTop cxFail cxRlpLen false 10 0 0 7 cxDB cxDisk)).getD
        (cxDB, cxDisk)).2
      (by rfl) cxChildKey (by rfl) (by rfl)⟩

/-! ## C2: `Cap` respects its memory budget

Well-formedness of a database state: unique keys, a meta root with an
allocated children map, size counters that agree with the entries, and a
flush list that enumerates every non-meta key exactly once. -/

/-- Keys of the flush list starting at `k`, following `flushNext` until the
meta root (with fuel against broken chains). -/
def flushKeys (m : Dirties) : Nat → NodeKey → Option (List NodeKey)
  | 0, k => if k = metaRoot then some [] else none
  | fuel + 1, k =>
    if k = metaRoot then some []
    else
      match findNode m k with
      | none => none
      | some n => (flushKeys m fuel n.flushNext).map (k :: ·)

/-- The dirty-data bytes (`hashLength + size`) accounted for the non-meta
entries of the dirty map. -/
def sumDirty : Dirties → Int
  | [] => 0
  | (k, n) :: rest =>
    (if k = metaRoot then 0 else ((hashLength + n.size : Nat) : Int)) + sumDirty rest

/-- The external-children bookkeeping bytes accounted for the entries of the
dirty map (the meta root's pre-allocated map contributes only its per-entry
counters). -/
def sumChildren : Dirties → Int
  | [] => 0
  | (k, n) :: rest =>
    (if k = metaRoot then
      (match n.children with
       | some cm => ((cm.length * (hashLength + 2) : Nat) : Int)
       | none => 0)
     else childrenFootprint n) + sumChildren rest

/-- Well-formed database state: unique keys, a tracked meta root with an
allocated children map, size counters agreeing with the entries, and a flush
list covering every non-meta key exactly once. -/
def WF (db : DB) : Prop :=
  (db.dirties.map Prod.fst).Nodup ∧
  (match findNode db.dirties metaRoot with
   | some me => me.children.isSome = true
   | none => False) ∧
  db.dirtiesSize = sumDirty db.dirties ∧
  db.childrenSize = sumChildren db.dirties ∧
  (match flushKeys db.dirties (db.dirties.length + 1) db.oldest with
   | some ks => ks.Nodup ∧ ∀ p ∈ db.dirties, p.1 ≠ metaRoot → p.1 ∈ ks
   | none => False)

/-- A walk along the flush list: the visited `(key, entry)` pairs from a
start key down to a stopping marker. -/
inductive FlushWalk (m : Dirties) : NodeKey → List (NodeKey × CachedNode) → NodeKey → Prop where
  | nil (k : NodeKey) : FlushWalk m k [] k
  | cons {k : NodeKey} {n : CachedNode} {vs : List (NodeKey × CachedNode)} {marker : NodeKey} :
      k ≠ metaRoot → findNode m k = some n →
      FlushWalk m n.flushNext vs marker → FlushWalk m k ((k, n) :: vs) marker

/-- Total `Cap` footprint of the visited entries. -/
def footSum : List (NodeKey × CachedNode) → Int
  | [] => 0
  | (_, n) :: vs => nodeFootprint n + footSum vs

/-- Total dirty-data bytes of the visited entries. -/
def sizeSum : List (NodeKey × CachedNode) → Int
  | [] => 0
  | (_, n) :: vs => ((hashLength + n.size : Nat) : Int) + sizeSum vs

/-- Total children-bookkeeping bytes of the visited entries. -/
def chSum : List (NodeKey × CachedNode) → Int
  | [] => 0
  | (_, n) :: vs => childrenFootprint n + chSum vs

/-- Erase a list of keys from the dirty map, in order. -/
def eraseList (m : Dirties) : List NodeKey → Dirties
  | [] => m
  | k :: ks => eraseList (eraseNode m k) ks

theorem footSum_split (vs : List (NodeKey × CachedNode)) :
    footSum vs = sizeSum vs + chSum vs + (cachedNodeSize : Int) * vs.length := by
  induction vs with
  | nil => simp [footSum, sizeSum, chSum]
  | cons p rest ih =>
    obtain ⟨k, n⟩ := p
    simp only [footSum, sizeSum, chSum, List.length_cons]
    rw [ih]
    cases hc : n.children with
    | none =>
      simp only [nodeFootprint, childrenFootprint, hc]
      push_cast
      ring
    | some cm =>
      simp only [nodeFootprint, childrenFootprint, hc]
      push_cast
      ring

theorem capLoop_ok_spec (fail : Nat → Bool) (rlpLen : TrieNode → Nat)
    (dirties : Dirties) (limit : Int) :
    ∀ (fuel : Nat) (oldest : NodeKey) (size : Int) (batch : Batch) (disk : Disk)
      (marker : NodeKey) (b : Batch) (d : Disk) (sz : Int),
      capLoop fail rlpLen dirties limit fuel oldest size batch disk =
        .ok (marker, b, d, sz) →
      ∃ vs, FlushWalk dirties oldest vs marker ∧ sz = size - footSum vs ∧
        (sz ≤ limit ∨ marker = metaRoot) := by
  intro fuel
  induction fuel with
  | zero =>
    intro oldest size batch disk marker b d sz h
    simp only [capLoop] at h
    cases h
  | succ fuel ih =>
    intro oldest size batch disk marker b d sz h
    simp only [capLoop] at h
    split at h
    next hstop =>
      injection h with h1
      injection h1 with hm h2
      injection h2 with hb h3
      injection h3 with hd hsz
      subst hm
      subst hsz
      exact ⟨[], FlushWalk.nil _, by simp [footSum], hstop⟩
    next hstop =>
      have hom : oldest ≠ metaRoot := fun hc => hstop (Or.inr hc)
      split at h
      next => cases h
      next node hfind =>
        split at h
        next hbig =>
          split at h
          next hw => cases h
          next disk2 hw =>
            obtain ⟨vs, hwalk, hsz, hstop2⟩ :=
              ih node.flushNext (size - nodeFootprint node) emptyBatch disk2 marker b d sz h
            refine ⟨(oldest, node) :: vs, FlushWalk.cons hom hfind hwalk, ?_, hstop2⟩
            simp only [footSum] at hsz ⊢
            omega
        next hbig =>
          obtain ⟨vs, hwalk, hsz, hstop2⟩ :=
            ih node.flushNext (size - nodeFootprint node) _ disk marker b d sz h
          refine ⟨(oldest, node) :: vs, FlushWalk.cons hom hfind hwalk, ?_, hstop2⟩
          simp only [footSum] at hsz ⊢
          omega

theorem flushKeys_metaRoot (m : Dirties) (fuel : Nat) :
    flushKeys m fuel metaRoot = some [] := by
  cases fuel <;> simp [flushKeys]

theorem flushKeys_cons {m : Dirties} {fuel : Nat} {k : NodeKey} {ks : List NodeKey}
    (h : flushKeys m fuel k = some ks) (hk : k ≠ metaRoot) :
    ∃ rest, ks = k :: rest := by
  cases fuel with
  | zero => rw [flushKeys, if_neg hk] at h; cases h
  | succ fuel =>
    rw [flushKeys, if_neg hk] at h
    split at h
    · cases h
    · cases hrec : flushKeys m fuel _ with
      | none => rw [hrec] at h; cases h
      | some ks' =>
        rw [hrec] at h
        simp only [Option.map_some', Option.some.injEq] at h
        exact ⟨ks', h.symm⟩

theorem flushWalk_entries {m : Dirties} :
    ∀ {start vs marker}, FlushWalk m start vs marker →
      ∀ p ∈ vs, p.1 ≠ metaRoot ∧ findNode m p.1 = some p.2 := by
  intro start vs marker hw
  induction hw with
  | nil k => intro p hp; cases hp
  | cons hk hf _ ih =>
    intro p hp
    rcases List.mem_cons.mp hp with h | h
    · subst h; exact ⟨hk, hf⟩
    · exact ih p h

theorem flushWalk_prefix {m : Dirties} :
    ∀ {start vs marker}, FlushWalk m start vs marker →
      ∀ {fuel : Nat} {ks : List NodeKey}, flushKeys m fuel start = some ks →
        ∃ ks', ks = vs.map Prod.fst ++ ks' ∧
          flushKeys m (fuel - vs.length) marker = some ks' := by
  intro start vs marker hw
  induction hw with
  | nil k =>
    intro fuel ks h
    exact ⟨ks, by simp, by simpa using h⟩
  | @cons k n vs' marker' hk hf hrest ih =>
    intro fuel ks h
    cases fuel with
    | zero => rw [flushKeys, if_neg hk] at h; cases h
    | succ fuel =>
      rw [flushKeys, if_neg hk] at h
      split at h
      next hfind => cases h
      next n' hfind =>
        have hnn : n' = n := by
          rw [hf] at hfind
          injection hfind with hv
          exact hv.symm
        rw [hnn] at h
        cases hrec : flushKeys m fuel n.flushNext with
        | none => rw [hrec] at h; cases h
        | some ks0 =>
          rw [hrec] at h
          simp only [Option.map_some', Option.some.injEq] at h
          subst h
          obtain ⟨ks', hks, hmk⟩ := ih hrec
          refine ⟨ks', by simp [hks], ?_⟩
          simpa [Nat.succ_sub_succ] using hmk

theorem eraseNode_eq_self_of_not_mem {m : Dirties} {k : NodeKey}
    (h : k ∉ m.map Prod.fst) : eraseNode m k = m := by
  induction m with
  | nil => rfl
  | cons p rest ih =>
    have hne : p.1 ≠ k := by
      intro hc
      exact h (by simp [hc])
    have hrest : k ∉ rest.map Prod.fst := fun hc => h (by simp [hc])
    simp only [eraseNode, List.filter] at ih ⊢
    rw [ih hrest]  -- may need adjusting
    simp [hne]

theorem map_fst_eraseNode_sublist (m : Dirties) (k : NodeKey) :
    ((eraseNode m k).map Prod.fst).Sublist (m.map Prod.fst) :=
  List.Sublist.map _ (List.filter_sublist m)

theorem nodup_eraseNode {m : Dirties} (k : NodeKey)
    (h : (m.map Prod.fst).Nodup) : ((eraseNode m k).map Prod.fst).Nodup :=
  (map_fst_eraseNode_sublist m k).nodup h

theorem eraseNode_cons_self (k : NodeKey) (n : CachedNode) (rest : Dirties) :
    eraseNode ((k, n) :: rest) k = eraseNode rest k := by
  simp [eraseNode, List.filter_cons]

theorem eraseNode_cons_ne {k0 k : NodeKey} (h : k0 ≠ k) (n0 : CachedNode)
    (rest : Dirties) :
    eraseNode ((k0, n0) :: rest) k = (k0, n0) :: eraseNode rest k := by
  simp [eraseNode, List.filter_cons, h]

theorem length_eraseNode {m : Dirties} {k : NodeKey} {n : CachedNode}
    (hnd : (m.map Prod.fst).Nodup) (hf : findNode m k = some n) :
    m.length = (eraseNode m k).length + 1 := by
  induction m with
  | nil => cases hf
  | cons p rest ih =>
    obtain ⟨k0, n0⟩ := p
    by_cases hk0 : k0 = k
    · subst hk0
      have hnotin : k0 ∉ rest.map Prod.fst := by
        simp only [List.map_cons, List.nodup_cons] at hnd
        exact hnd.1
      rw [eraseNode_cons_self, eraseNode_eq_self_of_not_mem hnotin]
      simp
    · have hf' : findNode rest k = some n := by
        rw [findNode, if_neg hk0] at hf
        exact hf
      have hnd' : (rest.map Prod.fst).Nodup := by
        simp only [List.map_cons, List.nodup_cons] at hnd
        exact hnd.2
      have := ih hnd' hf'
      rw [eraseNode_cons_ne hk0]
      simp only [List.length_cons]
      omega

theorem sumDirty_eraseNode {m : Dirties} {k : NodeKey} {n : CachedNode}
    (hnd : (m.map Prod.fst).Nodup) (hf : findNode m k = some n)
    (hk : k ≠ metaRoot) :
    sumDirty (eraseNode m k) = sumDirty m - ((hashLength + n.size : Nat) : Int) := by
  induction m with
  | nil => cases hf
  | cons p rest ih =>
    obtain ⟨k0, n0⟩ := p
    by_cases hk0 : k0 = k
    · subst hk0
      have hnn : n0 = n := by
        rw [findNode, if_pos rfl] at hf
        injection hf
      subst hnn
      have hnotin : k0 ∉ rest.map Prod.fst := by
        simp only [List.map_cons, List.nodup_cons] at hnd
        exact hnd.1
      rw [eraseNode_cons_self, eraseNode_eq_self_of_not_mem hnotin]
      simp only [sumDirty, if_neg hk]
      omega
    · have hf' : findNode rest k = some n := by
        rw [findNode, if_neg hk0] at hf
        exact hf
      have hnd' : (rest.map Prod.fst).Nodup := by
        simp only [List.map_cons, List.nodup_cons] at hnd
        exact hnd.2
      rw [eraseNode_cons_ne hk0]
      simp only [sumDirty]
      rw [ih hnd' hf']
      omega

theorem sumChildren_eraseNode {m : Dirties} {k : NodeKey} {n : CachedNode}
    (hnd : (m.map Prod.fst).Nodup) (hf : findNode m k = some n)
    (hk : k ≠ metaRoot) :
    sumChildren (eraseNode m k) = sumChildren m - childrenFootprint n := by
  induction m with
  | nil => cases hf
  | cons p rest ih =>
    obtain ⟨k0, n0⟩ := p
    by_cases hk0 : k0 = k
    · subst hk0
      have hnn : n0 = n := by
        rw [findNode, if_pos rfl] at hf
        injection hf
      subst hnn
      have hnotin : k0 ∉ rest.map Prod.fst := by
        simp only [List.map_cons, List.nodup_cons] at hnd
        exact hnd.1
      rw [eraseNode_cons_self, eraseNode_eq_self_of_not_mem hnotin]
      simp only [sumChildren, if_neg hk]
      omega
    · have hf' : findNode rest k = some n := by
        rw [findNode, if_neg hk0] at hf
        exact hf
      have hnd' : (rest.map Prod.fst).Nodup := by
        simp only [List.map_cons, List.nodup_cons] at hnd
        exact hnd.2
      rw [eraseNode_cons_ne hk0]
      simp only [sumChildren]
      rw [ih hnd' hf']
      omega

/-- The entries of a visited list agree with the map. -/
def EntriesOf (m : Dirties) (vs : List (NodeKey × CachedNode)) : Prop :=
  ∀ p ∈ vs, findNode m p.1 = some p.2

theorem entriesOf_erase {m : Dirties} {k : NodeKey} {vs : List (NodeKey × CachedNode)}
    (h : EntriesOf m vs) (hk : k ∉ vs.map Prod.fst) : EntriesOf (eraseNode m k) vs := by
  intro p hp
  rw [findNode_eraseNode, if_neg (fun hc => hk (by
    rw [hc]; exact List.mem_map_of_mem Prod.fst hp))]
  exact h p hp

theorem mem_eraseList {m : Dirties} :
    ∀ {l : List NodeKey} {p : NodeKey × CachedNode},
      p ∈ eraseList m l → p ∈ m ∧ p.1 ∉ l := by
  intro l
  induction l generalizing m with
  | nil => intro p hp; exact ⟨hp, by simp⟩
  | cons k ks ih =>
    intro p hp
    obtain ⟨hp1, hp2⟩ := ih (m := eraseNode m k) hp
    have hpm : p ∈ m ∧ p.1 ≠ k := by
      simp only [eraseNode, List.mem_filter, decide_eq_true_eq] at hp1
      exact hp1
    exact ⟨hpm.1, by simp [hp2, hpm.2]⟩

theorem findNode_eraseList {m : Dirties} :
    ∀ (l : List NodeKey) (k : NodeKey), k ∉ l →
      findNode (eraseList m l) k = findNode m k := by
  intro l
  induction l generalizing m with
  | nil => intro k _; rfl
  | cons k0 ks ih =>
    intro k hk
    have hk0 : k0 ≠ k := fun hc => hk (by simp [hc])
    have hks : k ∉ ks := fun hc => hk (by simp [hc])
    rw [show eraseList m (k0 :: ks) = eraseList (eraseNode m k0) ks from rfl,
      ih k hks, findNode_eraseNode, if_neg hk0]

/-- Bulk accounting of an in-order erasure of distinct, present, non-meta
keys. -/
theorem eraseList_accounting {vs : List (NodeKey × CachedNode)} :
    ∀ {m : Dirties}, (m.map Prod.fst).Nodup → EntriesOf m vs →
      (vs.map Prod.fst).Nodup → (∀ p ∈ vs, p.1 ≠ metaRoot) →
      ((eraseList m (vs.map Prod.fst)).map Prod.fst).Nodup ∧
      m.length = (eraseList m (vs.map Prod.fst)).length + vs.length ∧
      sumDirty (eraseList m (vs.map Prod.fst)) = sumDirty m - sizeSum vs ∧
      sumChildren (eraseList m (vs.map Prod.fst)) = sumChildren m - chSum vs := by
  induction vs with
  | nil =>
    intro m hnd _ _ _
    exact ⟨hnd, rfl, by simp [eraseList, sizeSum], by simp [eraseList, chSum]⟩
  | cons p rest ih =>
    intro m hnd hent hvnd hmeta
    obtain ⟨k, n⟩ := p
    have hf : findNode m k = some n := hent (k, n) (List.mem_cons_self _ _)
    have hkm : k ≠ metaRoot := hmeta (k, n) (List.mem_cons_self _ _)
    have hknotin : k ∉ rest.map Prod.fst := by
      simp only [List.map_cons, List.nodup_cons] at hvnd
      exact hvnd.1
    have hnd' := nodup_eraseNode k hnd
    have hent' : EntriesOf (eraseNode m k) rest :=
      entriesOf_erase (fun q hq => hent q (List.mem_cons_of_mem _ hq)) hknotin
    have hvnd' : (rest.map Prod.fst).Nodup := by
      simp only [List.map_cons, List.nodup_cons] at hvnd
      exact hvnd.2
    have hmeta' : ∀ q ∈ rest, q.1 ≠ metaRoot :=
      fun q hq => hmeta q (List.mem_cons_of_mem _ hq)
    obtain ⟨ihnd, ihlen, ihsd, ihsc⟩ := ih hnd' hent' hvnd' hmeta'
    have hstep : eraseList m (((k, n) :: rest).map Prod.fst) =
        eraseList (eraseNode m k) (rest.map Prod.fst) := rfl
    refine ⟨hstep ▸ ihnd, ?_, ?_, ?_⟩
    · rw [hstep]
      have := length_eraseNode hnd hf
      simp only [List.length_cons]
      omega
    · rw [hstep, ihsd, sumDirty_eraseNode hnd hf hkm]
      simp only [sizeSum]
      omega
    · rw [hstep, ihsc, sumChildren_eraseNode hnd hf hkm]
      simp only [chSum]
      omega

theorem flushWalk_erase {m : Dirties} :
    ∀ {start vs marker}, FlushWalk m start vs marker →
      ∀ {k : NodeKey}, k ∉ vs.map Prod.fst →
        FlushWalk (eraseNode m k) start vs marker := by
  intro start vs marker hw
  induction hw with
  | nil k0 => intro k _; exact FlushWalk.nil k0
  | @cons k0 n vs' marker' hk hf hrest ih =>
    intro k hkn
    have hne : k ≠ k0 := by
      intro hc; exact hkn (by simp [hc])
    have hkn' : k ∉ vs'.map Prod.fst := by
      intro hc; exact hkn (by simp [hc])
    refine FlushWalk.cons hk ?_ (ih hkn')
    rw [findNode_eraseNode, if_neg hne]
    exact hf

theorem length_setNode {m : Dirties} {k : NodeKey} {v : CachedNode}
    (h : (findNode m k).isSome) : (setNode m k v).length = m.length := by
  induction m with
  | nil => simp [findNode] at h
  | cons p rest ih =>
    obtain ⟨k0, n0⟩ := p
    by_cases h0 : k0 = k
    · rw [setNode, if_pos h0]
      simp
    · have h' : (findNode rest k).isSome := by
        rw [findNode, if_neg h0] at h
        exact h
      rw [setNode, if_neg h0]
      simp only [List.length_cons, ih h']

/-- Rewriting one tracked entry in place (the flush-list head fixup at the
end of `Cap`) does not change the reported size. -/
theorem reportSize_setNode {db : DB} {k : NodeKey} {v : CachedNode}
    (hk : ¬(k = metaRoot)) (hs : (findNode db.dirties k).isSome) :
    reportSize { db with dirties := setNode db.dirties k v } = reportSize db := by
  simp only [reportSize, metaChildCount, length_setNode hs, findNode_setNode, if_neg hk]

/-- A duplicate-free dirty map whose keys are all the meta root and which
still holds the meta root is exactly the singleton meta map. -/
theorem allMeta_singleton {l : Dirties} {me : CachedNode}
    (hall : ∀ p ∈ l, p.1 = metaRoot)
    (hnd : (l.map Prod.fst).Nodup)
    (hf : findNode l metaRoot = some me) :
    l = [(metaRoot, me)] := by
  cases l with
  | nil => cases hf
  | cons p rest =>
    obtain ⟨k0, n0⟩ := p
    have hk0 : k0 = metaRoot := hall (k0, n0) (List.mem_cons_self _ _)
    subst hk0
    have hrest : rest = [] := by
      cases rest with
      | nil => rfl
      | cons q rest' =>
        have hq : q.1 = metaRoot := hall q (List.mem_cons_of_mem _ (List.mem_cons_self _ _))
        simp only [List.map_cons, List.nodup_cons] at hnd
        exact absurd (by rw [hq]; exact List.mem_cons_self _ _) hnd.1
    subst hrest
    rw [findNode, if_pos rfl] at hf
    injection hf with hme
    rw [hme]

/-- Full characterization of the `Cap` uncache loop along a flush-list walk
with distinct keys: it erases exactly the visited keys, moves the flush-list
head to the marker and releases exactly the visited data and children
bytes. -/
theorem uncacheLoop_spec :
    ∀ (vs : List (NodeKey × CachedNode)) (m : Dirties) (marker : NodeKey)
      (db : DB) (fuel : Nat) (db' : DB),
      FlushWalk m db.oldest vs marker →
      db.dirties = m →
      (vs.map Prod.fst).Nodup →
      marker ∉ vs.map Prod.fst →
      uncacheLoop fuel db marker = some db' →
      db'.dirties = eraseList m (vs.map Prod.fst) ∧
      db'.oldest = marker ∧
      db'.dirtiesSize = db.dirtiesSize - sizeSum vs ∧
      db'.childrenSize = db.childrenSize - chSum vs := by
  intro vs
  induction vs with
  | nil =>
    intro m marker db fuel db' hwalk hdb hnd hmark hun
    cases hwalk
    cases fuel with
    | zero => cases hun
    | succ fuel =>
      rw [uncacheLoop, if_pos rfl] at hun
      injection hun with h
      subst h
      exact ⟨hdb, rfl, by simp [sizeSum], by simp [chSum]⟩
  | cons p rest ih =>
    intro m marker db fuel db' hwalk hdb hnd hmark hun
    obtain ⟨k, n⟩ := p
    cases hwalk with
    | cons hk hf htail =>
      cases fuel with
      | zero => cases hun
      | succ fuel =>
        have hne : ¬(db.oldest = marker) := fun hc =>
          hmark (List.mem_map.mpr ⟨(db.oldest, n), List.mem_cons_self _ _, hc⟩)
        rw [uncacheLoop, if_neg hne] at hun
        simp only [hdb, hf] at hun
        simp only [List.map_cons, List.nodup_cons] at hnd
        have hmark' : marker ∉ rest.map Prod.fst := fun hc =>
          hmark (by rw [List.map_cons]; exact List.mem_cons_of_mem _ hc)
        have hwalk' : FlushWalk (eraseNode m db.oldest) n.flushNext rest marker :=
          flushWalk_erase htail hnd.1
        have key := ih (eraseNode m db.oldest) marker
          { db with
              dirties := eraseNode m db.oldest,
              oldest := n.flushNext,
              dirtiesSize := db.dirtiesSize - ((hashLength + n.size : Nat) : Int),
              childrenSize := db.childrenSize - childrenFootprint n }
          fuel db' hwalk' rfl hnd.2 hmark' hun
        obtain ⟨e1, e2, e3, e4⟩ := key
        refine ⟨e1, e2, ?_, ?_⟩
        · have e3' : db'.dirtiesSize =
              db.dirtiesSize - ((hashLength + n.size : Nat) : Int) - sizeSum rest := e3
          show db'.dirtiesSize = db.dirtiesSize - sizeSum ((db.oldest, n) :: rest)
          simp only [sizeSum]
          omega
        · have e4' : db'.childrenSize =
              db.childrenSize - childrenFootprint n - chSum rest := e4
          show db'.childrenSize = db.childrenSize - chSum ((db.oldest, n) :: rest)
          simp only [chSum]
          omega

theorem preimageReset_dirties (f : Bool) (db : DB) :
    (preimageReset f db).dirties = db.dirties := by
  simp only [preimageReset]
  split <;> rfl

theorem preimageReset_oldest (f : Bool) (db : DB) :
    (preimageReset f db).oldest = db.oldest := by
  simp only [preimageReset]
  split <;> rfl

theorem preimageReset_dirtiesSize (f : Bool) (db : DB) :
    (preimageReset f db).dirtiesSize = db.dirtiesSize := by
  simp only [preimageReset]
  split <;> rfl

theorem preimageReset_childrenSize (f : Bool) (db : DB) :
    (preimageReset f db).childrenSize = db.childrenSize := by
  simp only [preimageReset]
  split <;> rfl

/-- The write-then-uncache phase of `Cap` on a well-formed database: the
reported size drops by exactly the footprint of the flushed walk, the flush
head lands on the marker, and if the walk consumed the whole flush list
(marker = meta root) only the meta root remains and the reported size is
zero. -/
theorem cap_uncache_phase (db dbP : DB) (vs : List (NodeKey × CachedNode))
    (marker : NodeKey) (fuel : Nat) (db1 : DB)
    (hwf : WF db)
    (hP1 : dbP.dirties = db.dirties) (hP2 : dbP.oldest = db.oldest)
    (hP3 : dbP.dirtiesSize = db.dirtiesSize) (hP4 : dbP.childrenSize = db.childrenSize)
    (hwalk : FlushWalk db.dirties db.oldest vs marker)
    (hun : uncacheLoop fuel dbP marker = some db1) :
    reportSize db1 = reportSize db - footSum vs ∧
    db1.oldest = marker ∧
    (marker = metaRoot → reportSize db1 = 0) := by
  obtain ⟨hnd, hme, hds, hcs, hfl⟩ := hwf
  cases hmeq : findNode db.dirties metaRoot with
  | none =>
    rw [hmeq] at hme
    exact (hme : False).elim
  | some me =>
    rw [hmeq] at hme
    have hmeS : me.children.isSome = true := hme
    cases hfk : flushKeys db.dirties (db.dirties.length + 1) db.oldest with
    | none =>
      rw [hfk] at hfl
      exact (hfl : False).elim
    | some ks =>
      rw [hfk] at hfl
      have hfl' : ks.Nodup ∧ ∀ p ∈ db.dirties, p.1 ≠ metaRoot → p.1 ∈ ks := hfl
      obtain ⟨hksnd, hcov⟩ := hfl'
      obtain ⟨ks', hksef, hks'⟩ := flushWalk_prefix hwalk hfk
      subst hksef
      have hvnd : (vs.map Prod.fst).Nodup := (List.nodup_append.mp hksnd).1
      have hdisj := (List.nodup_append.mp hksnd).2.2
      have hmetafree : ∀ p ∈ vs, p.1 ≠ metaRoot := fun p hp =>
        (flushWalk_entries hwalk p hp).1
      have hent : EntriesOf db.dirties vs := fun p hp =>
        (flushWalk_entries hwalk p hp).2
      have hmark : marker ∉ vs.map Prod.fst := by
        by_cases hmm : marker = metaRoot
        · intro hc
          obtain ⟨p, hp, hpe⟩ := List.mem_map.mp hc
          exact hmetafree p hp (hpe.trans hmm)
        · obtain ⟨rest, hrest⟩ := flushKeys_cons hks' hmm
          intro hc
          exact hdisj hc (by rw [hrest]; exact List.mem_cons_self _ _)
      obtain ⟨e1, e2, e3, e4⟩ :=
        uncacheLoop_spec vs db.dirties marker dbP fuel db1
          (by rw [hP2]; exact hwalk) hP1 hvnd hmark hun
      obtain ⟨aNd, aLen, aSd, aSc⟩ := eraseList_accounting hnd hent hvnd hmetafree
      have hmetanotin : metaRoot ∉ vs.map Prod.fst := by
        intro hc
        obtain ⟨p, hp, hpe⟩ := List.mem_map.mp hc
        exact hmetafree p hp hpe
      have hfm1 : findNode db1.dirties metaRoot = some me := by
        rw [e1, findNode_eraseList _ _ hmetanotin, hmeq]
      have hmc : metaChildCount db1 = metaChildCount db := by
        simp only [metaChildCount, hfm1, hmeq]
      have hlen : db.dirties.length = db1.dirties.length + vs.length := by
        rw [e1]
        exact aLen
      have hrep : reportSize db1 = reportSize db - footSum vs := by
        rw [footSum_split]
        simp only [reportSize, hmc, e3, e4, hP3, hP4, cachedNodeSize, hashLength]
        push_cast
        omega
      refine ⟨hrep, e2, ?_⟩
      intro hmm
      subst hmm
      have hks'nil : ks' = [] := by
        rw [flushKeys_metaRoot] at hks'
        injection hks' with h
        exact h.symm
      subst hks'nil
      have hcov' : ∀ p ∈ db.dirties, p.1 ≠ metaRoot → p.1 ∈ vs.map Prod.fst := by
        intro p hp hne
        have hm := hcov p hp hne
        simpa using hm
      have hall : ∀ p ∈ db1.dirties, p.1 = metaRoot := by
        intro p hp
        rw [e1] at hp
        obtain ⟨hpm, hpn⟩ := mem_eraseList hp
        by_contra hne
        exact hpn (hcov' p hpm hne)
      have hnd1 : (db1.dirties.map Prod.fst).Nodup := by
        rw [e1]
        exact aNd
      have hsing : db1.dirties = [(metaRoot, me)] := allMeta_singleton hall hnd1 hfm1
      obtain ⟨cm, hcm⟩ := Option.isSome_iff_exists.mp hmeS
      have hd1 : db1.dirtiesSize = 0 := by
        have hsum : db1.dirtiesSize = sumDirty db1.dirties := by
          rw [e3, hP3, hds, e1, aSd]
        rw [hsing] at hsum
        simpa [sumDirty] using hsum
      have hc1 : db1.childrenSize = ((cm.length * (hashLength + 2) : Nat) : Int) := by
        have hsum : db1.childrenSize = sumChildren db1.dirties := by
          rw [e4, hP4, hcs, e1, aSc]
        rw [hsing] at hsum
        simpa [sumChildren, hcm] using hsum
      have hmc1 : metaChildCount db1 = cm.length := by
        simp only [metaChildCount, hfm1, hcm]
      simp only [reportSize, hd1, hc1, hmc1, hsing, List.length_singleton,
        hashLength, cachedNodeSize]
      push_cast
      ring

/-- C2: for every limit, a `Cap(limit)` call on a well-formed database that
returns without error leaves the total tracked memory (dirty data plus
per-entry metadata plus external-children bookkeeping, the quantity `Size`
reports and `Cap` measures against its limit) at or below the limit.  The
flush loop either stops with the running size at the limit or exhausts the
flush list, after which only the meta root remains and the reported size is
zero, so for a nonnegative limit the budget always holds — the claim's
escape clause is never needed. -/
theorem cap_respects_limit (fail : Nat → Bool) (rlpLen : TrieNode → Nat)
    (db : DB) (disk : Disk) (limit : Int) (db' : DB) (disk' : Disk)
    (hwf : WF db) (hlim : 0 ≤ limit)
    (hok : cap fail rlpLen db disk limit = .ok (db', disk')) :
    reportSize db' ≤ limit := by
  simp only [cap] at hok
  split at hok
  next => exact Res.noConfusion hok
  next me hme =>
    split at hok
    next e heqPre => exact Res.noConfusion hok
    next heqPre => exact Res.noConfusion hok
    next b0 d0 heqPre =>
      split at hok
      next heqL => exact Res.noConfusion hok
      next d heqL => exact Res.noConfusion hok
      next marker b1 d1 sz heqL =>
        split at hok
        next hw => exact Res.noConfusion hok
        next disk2 hw =>
          obtain ⟨vs, hwalk, hsz, hor⟩ :=
            capLoop_ok_spec fail rlpLen db.dirties limit _ db.oldest
              (reportSize db) b0 d0 marker b1 d1 sz heqL
          split at hok
          next huncache => exact Res.noConfusion hok
          next db1 huncache =>
            obtain ⟨hrep, holdest, hmeta0⟩ :=
              cap_uncache_phase db (preimageReset _ db) vs marker _ db1 hwf
                (preimageReset_dirties _ _) (preimageReset_oldest _ _)
                (preimageReset_dirtiesSize _ _) (preimageReset_childrenSize _ _)
                hwalk huncache
            have hgoal : reportSize db1 ≤ limit := by
              rcases hor with h | h
              · rw [hrep, ← hsz]
                exact h
              · rw [hmeta0 h]
                exact hlim
            split at hok
            next hfinal =>
              injection hok with h1
              injection h1 with hdb hdk
              subst hdb
              exact hgoal
            next hfinal =>
              split at hok
              next => exact Res.noConfusion hok
              next hd hfind =>
                injection hok with h1
                injection h1 with hdb hdk
                subst hdb
                rw [reportSize_setNode hfinal (by rw [hfind]; rfl)]
                exact hgoal

/-- Witness for C2: on a freshly created database (only the meta root,
reported size zero) `Cap 1000000` succeeds and the reported size stays at or
below the limit. -/
theorem cap_respects_limit_witness :
    WF db0 ∧ (0 : Int) ≤ 1000000 ∧ reportSize db0 ≤ 1000000 :=
  have hwf : WF db0 := by
    unfold WF
    refine ⟨by decide, rfl, rfl, rfl, ?_⟩
    show ([] : List NodeKey).Nodup ∧
      ∀ p ∈ db0.dirties, p.1 ≠ metaRoot → p.1 ∈ ([] : List NodeKey)
    refine ⟨List.nodup_nil, ?_⟩
    intro p hp hne
    simp only [db0, List.mem_singleton] at hp
    subst hp
    exact absurd rfl hne
  ⟨hwf, by norm_num,
    cap_respects_limit (fun _ => false) (fun _ => 0) db0 ⟨[], 0⟩ 1000000 db0 ⟨[], 1⟩
      hwf (by norm_num) (by rfl)⟩

end TrieDB
